import Mathlib

/-!
# magnetik: bencode codec and torrent metainfo parser

A shallow embedding of `utils/bencode/decoder.go`, `utils/bencode/encoder.go`,
`utils/torrent/parser.go`, `utils/torrent/file.go` and the response decoding of
`utils/tracker/announce.go`.

Modelling conventions

* A Go `string` / `[]byte` is a `List Nat` of byte values; ASCII codes are
  written as numerals (`'0' = 48`, `'9' = 57`, `':' = 58`, `'d' = 100`,
  `'e' = 101`, `'i' = 105`, `'l' = 108`, `'-' = 45`, `'+' = 43`).
* The reader is a finite byte list; reading past its end yields `io.EOF`.
* A run-time panic is the separate outcome `fault`, never an error value.
* Go `int` and `int64` are 64 bits wide (`strconv.IntSize = 64`).
* Allocation of a non-negative length always succeeds (memory is unbounded).
-/

namespace Bencode

/-- Error values that the codec can return. `EOF` and `ErrUnexpectedEOF` are the
`io` errors, `ErrSyntax` and `ErrRange` the two kinds of `strconv.NumError`,
`ErrUnsupportedType` the encoder's `Cannot encode type` error. -/
inductive Err where
  | EOF
  | ErrUnexpectedEOF
  | ErrSyntax
  | ErrRange
  | ErrInvalidBencode
  | ErrIntegerFormat
  | ErrUnsupportedType
  deriving DecidableEq

/-- Outcome of a read from the stream: a value with the unread remainder, a
returned error, a run-time panic, or exhaustion of the recursion budget. -/
inductive Res (α : Type) where
  | ok (v : α) (rest : List Nat)
  | error (e : Err)
  | fault
  | outOfFuel
  deriving DecidableEq

/-- The dynamic values (`any`) that flow through the codec and the parser:
`string`, `int64`, `[]any`, `map[string]any` and `[]byte`. A map is an
association list; Go maps have unique keys and no order. -/
inductive Value where
  | str (s : List Nat)
  | int (n : Int)
  | list (items : List Value)
  | dict (entries : List (List Nat × Value))
  | bytes (b : List Nat)

/-- ASCII bytes of a string literal. -/
def ascii (s : String) : List Nat := s.data.map Char.toNat

/-! ## Go maps as association lists -/

/-- Map read `d[k]` with the comma-ok result as an `Option`. -/
def mapLookup {α : Type} : List (List Nat × α) → List Nat → Option α
  | [], _ => none
  | (k', v) :: d, k => if k' = k then some v else mapLookup d k

/-- Map write `d[k] = v`: replaces the entry of an existing key. -/
def mapInsert {α : Type} : List (List Nat × α) → List Nat → α → List (List Nat × α)
  | [], k, v => [(k, v)]
  | (k', v') :: d, k, v => if k' = k then (k, v) :: d else (k', v') :: mapInsert d k v

/-! ## strconv -/

/-- Loop of `strconv.ParseUint(s, 10, 64)`: a byte outside `'0'..'9'` is a syntax
error, an accumulator leaving the unsigned 64-bit range a range error. -/
def parseUintLoop : List Nat → Nat → Except Err Nat
  | [], n => .ok n
  | c :: cs, n =>
    if 48 ≤ c ∧ c ≤ 57 then
      let d := c - 48
      if n ≥ (2 ^ 64 - 1) / 10 + 1 then .error .ErrRange
      else
        let n10 := n * 10
        let n1 := (n10 + d) % 2 ^ 64
        if n1 < n10 ∨ n1 > 2 ^ 64 - 1 then .error .ErrRange
        else parseUintLoop cs n1
    else .error .ErrSyntax

/-- Base-10, 64-bit `strconv.ParseUint`. -/
def ParseUint (s : List Nat) : Except Err Nat :=
  if s = [] then .error .ErrSyntax else parseUintLoop s 0

/-- Base-10, 64-bit `strconv.ParseInt`: optional sign, then `ParseUint`, then
the signed range check. -/
def ParseInt (s : List Nat) : Except Err Int :=
  match s with
  | [] => .error .ErrSyntax
  | c :: cs =>
    let neg := decide (c = 45)
    let body := if c = 43 ∨ c = 45 then cs else s
    match ParseUint body with
    | .error e => .error e
    | .ok un =>
      if ¬ neg ∧ un ≥ 2 ^ 63 then .error .ErrRange
      else if neg ∧ un > 2 ^ 63 then .error .ErrRange
      else .ok (if neg then - (un : Int) else (un : Int))

/-- On a 64-bit platform `strconv.Atoi` computes `ParseInt(s, 10, 0)`; its fast
path for short inputs returns the same results. -/
def Atoi (s : List Nat) : Except Err Int := ParseInt s

/-- Digit loop of `strconv.FormatUint(n, 10)`: digits are produced from the least
significant one and prepended. -/
def formatBits : Nat → Nat → List Nat → List Nat
  | 0, _, acc => acc
  | fuel + 1, n, acc =>
    if n < 10 then (48 + n) :: acc
    else formatBits fuel (n / 10) ((48 + n % 10) :: acc)

/-- Decimal rendering of a natural number, the `%d` verb on a non-negative value. -/
def FormatUint (n : Nat) : List Nat := formatBits (n + 1) n []

/-- Decimal rendering of an integer, the `%d` verb: `-` only for negatives. -/
def FormatInt (n : Int) : List Nat :=
  if n < 0 then 45 :: FormatUint n.natAbs else FormatUint n.natAbs

/-! ## decoder.go -/

/-- Loop of `readUntil`: bytes are appended to `res` until `delim` is read. -/
def readUntilLoop (delim : Nat) : List Nat → List Nat → Res (List Nat)
  | [], _ => .error .EOF
  | b :: rest, res => if b = delim then .ok res rest else readUntilLoop delim rest (res ++ [b])

/-- Go's `readUntil(r, delim)`. -/
def readUntil (input : List Nat) (delim : Nat) : Res (List Nat) := readUntilLoop delim input []

/-- Go's `io.ReadFull` into a buffer of `n` bytes. -/
def ReadFull (input : List Nat) (n : Nat) : Res (List Nat) :=
  if n ≤ input.length then .ok (input.take n) (input.drop n)
  else if input = [] then .error .EOF
  else .error .ErrUnexpectedEOF

/-- Go's `decodeString`: `make([]byte, length)` panics on a negative length.
Memory is unbounded in this model: a non-negative length is always allocated,
so a length prefix beyond the runtime's allocation limit, where `make` panics
as well, reads as a buffer that `io.ReadFull` cannot fill. -/
def decodeString (input : List Nat) : Res (List Nat) :=
  match readUntil input 58 with
  | .ok lengthStr rest =>
    match Atoi lengthStr with
    | .error e => .error e
    | .ok length => if length < 0 then .fault else ReadFull rest length.toNat
  | .error e => .error e
  | .fault => .fault
  | .outOfFuel => .outOfFuel

/-- Go's `decodeInt`. -/
def decodeInt (input : List Nat) : Res Int :=
  match input with
  | [] => .error .EOF
  | _ :: input1 =>
    match readUntil input1 101 with
    | .ok numStr rest =>
      if numStr.length > 1 ∧ numStr.head? = some 48 then .error .ErrIntegerFormat
      else if numStr.length > 1 ∧ numStr.take 2 = [45, 48] then .error .ErrIntegerFormat
      else
        match ParseInt numStr with
        | .error e => .error e
        | .ok num => .ok num rest
    | .error e => .error e
    | .fault => .fault
    | .outOfFuel => .outOfFuel

mutual

/-- Go's `decodeNext`; the first argument bounds the recursion depth. -/
def decodeNext : Nat → List Nat → Res Value
  | 0, _ => .outOfFuel
  | fuel + 1, input =>
    match input with
    | [] => .error .EOF
    | b :: _ =>
      if 48 ≤ b ∧ b ≤ 57 then
        match decodeString input with
        | .ok s rest => .ok (.str s) rest
        | .error e => .error e
        | .fault => .fault
        | .outOfFuel => .outOfFuel
      else if b = 105 then
        match decodeInt input with
        | .ok n rest => .ok (.int n) rest
        | .error e => .error e
        | .fault => .fault
        | .outOfFuel => .outOfFuel
      else if b = 108 then
        match input with
        | [] => .error .EOF
        | _ :: input1 =>
          match decodeListLoop fuel input1 [] with
          | .ok l rest => .ok (.list l) rest
          | .error e => .error e
          | .fault => .fault
          | .outOfFuel => .outOfFuel
      else if b = 100 then
        match input with
        | [] => .error .EOF
        | _ :: input1 =>
          match decodeDictLoop fuel input1 [] with
          | .ok d rest => .ok (.dict d) rest
          | .error e => .error e
          | .fault => .fault
          | .outOfFuel => .outOfFuel
      else .error .ErrInvalidBencode

/-- The `for` loop of `decodeList`. -/
def decodeListLoop : Nat → List Nat → List Value → Res (List Value)
  | 0, _, _ => .outOfFuel
  | fuel + 1, input, list =>
    match input with
    | [] => .error .EOF
    | b :: rest =>
      if b = 101 then .ok list rest
      else
        match decodeNext fuel input with
        | .ok item rest1 => decodeListLoop fuel rest1 (list ++ [item])
        | .error e => .error e
        | .fault => .fault
        | .outOfFuel => .outOfFuel

/-- The `for` loop of `decodeDict`. -/
def decodeDictLoop : Nat → List Nat → List (List Nat × Value) → Res (List (List Nat × Value))
  | 0, _, _ => .outOfFuel
  | fuel + 1, input, dict =>
    match input with
    | [] => .error .EOF
    | b :: rest =>
      if b = 101 then .ok dict rest
      else
        match decodeString input with
        | .ok key rest1 =>
          match decodeNext fuel rest1 with
          | .ok value rest2 => decodeDictLoop fuel rest2 (mapInsert dict key value)
          | .error e => .error e
          | .fault => .fault
          | .outOfFuel => .outOfFuel
        | .error e => .error e
        | .fault => .fault
        | .outOfFuel => .outOfFuel

end

/-- Go's `Decode` on a reader holding exactly `input`. The recursion budget
`2 * len + 2` is never exhausted. -/
def Decode (input : List Nat) : Res Value := decodeNext (2 * input.length + 2) input

/-! ## encoder.go

The writer is an in-memory buffer, so writes never fail; a function returns the
bytes it wrote, or the error it returned. -/

/-- Go's `<` on strings: byte-wise lexicographic comparison. -/
def strLess : List Nat → List Nat → Bool
  | [], [] => false
  | [], _ :: _ => true
  | _ :: _, [] => false
  | a :: as, b :: bs => if a < b then true else if b < a then false else strLess as bs

/-- Go's `sort.Strings`: ascending by `strLess`. -/
def sortStrings (keys : List (List Nat)) : List (List Nat) :=
  keys.insertionSort (fun a b => strLess b a = false)

/-- Go's `encodeString`: the format `%d:%s` applied to `len(s)` and `s`. -/
def encodeString (s : List Nat) : List Nat := FormatUint s.length ++ 58 :: s

/-- Go's `encodeInt` on an `int64`: the format `i%de`. -/
def encodeInt (n : Int) : List Nat := 105 :: FormatInt n ++ [101]

/-- The second loop of `encodeDict` followed by the closing `e`: for each key in
turn the key is written, then the encoding `enc key` of `d[key]`; a key without
entry reads as `nil`, which `encodeValue` cannot encode. -/
def encodeDictLoop (enc : List Nat → Option (Except Err (List Nat))) :
    List (List Nat) → Except Err (List Nat)
  | [] => .ok [101]
  | key :: keys =>
    match enc key with
    | none => .error .ErrUnsupportedType
    | some (.error e) => .error e
    | some (.ok out) =>
      match encodeDictLoop enc keys with
      | .error e => .error e
      | .ok tail => .ok (encodeString key ++ out ++ tail)

mutual

/-- Go's `encodeValue`. For a map the keys are collected, sorted, and each
`d[key]` is encoded in that order; `encodeEntries` holds the encoding of every
entry so that the recursion is structural (see `mapLookup_encodeEntries`). -/
def encodeValue : Value → Except Err (List Nat)
  | .str s => .ok (encodeString s)
  | .int n => .ok (encodeInt n)
  | .list l =>
    match encodeListLoop l with
    | .error e => .error e
    | .ok out => .ok (108 :: out)
  | .dict d =>
    match encodeDictLoop (mapLookup (encodeEntries d)) (sortStrings (d.map Prod.fst)) with
    | .error e => .error e
    | .ok out => .ok (100 :: out)
  | .bytes _ => .error .ErrUnsupportedType

/-- The loop of `encodeList` followed by the closing `e`. -/
def encodeListLoop : List Value → Except Err (List Nat)
  | [] => .ok [101]
  | v :: l =>
    match encodeValue v with
    | .error e => .error e
    | .ok out =>
      match encodeListLoop l with
      | .error e => .error e
      | .ok tail => .ok (out ++ tail)

/-- The map with every value replaced by its encoding. -/
def encodeEntries : List (List Nat × Value) → List (List Nat × Except Err (List Nat))
  | [] => []
  | (k, v) :: d => (k, encodeValue v) :: encodeEntries d

end

/-- Go's `Encode` into an empty buffer. -/
def Encode (v : Value) : Except Err (List Nat) := encodeValue v

end Bencode

namespace Torrent

open Bencode

/-- Errors returned by the parser: the two sentinel errors, each wrapped with a
message (empty for the bare sentinel), and the wrapped encoder error of
`calculateInfoHash`. -/
inductive Err where
  | ErrInvalidTorrentFile (msg : String)
  | ErrInvalidInfoDict (msg : String)
  | infoHashFailed (e : Bencode.Err)
  deriving DecidableEq

/-- Go's `errors.Is(err, ErrInvalidInfoDict)`. -/
def Err.isInvalidInfoDict : Err → Bool
  | .ErrInvalidInfoDict _ => true
  | _ => false

/-- Go's `errors.Is(err, ErrInvalidTorrentFile)`. -/
def Err.isInvalidTorrentFile : Err → Bool
  | .ErrInvalidTorrentFile _ => true
  | _ => false

/-- Outcome of a parser call: a value, a returned error, or a run-time panic. -/
inductive Outcome (α : Type) where
  | ok (v : α)
  | error (e : Err)
  | fault
  deriving DecidableEq

/-- Go's `FileDict`. -/
structure FileDict where
  Length : Int
  Path : List (List Nat)
  deriving DecidableEq

/-- Go's `InfoDict`. -/
structure InfoDict where
  PieceLength : Int
  Pieces : List Nat
  Private : Bool
  Name : List Nat
  Length : Int
  Files : List FileDict
  IsDirectory : Bool
  deriving DecidableEq

/-- Go's `TorrentFile`; `CreationDate` is the Unix time in seconds when set. -/
structure TorrentFile where
  Announce : List Nat
  AnnounceList : List (List (List Nat))
  CreationDate : Option Int
  Comment : List Nat
  CreatedBy : List Nat
  Encoding : List Nat
  Info : InfoDict
  InfoHash : List Nat
  PiecesHash : List (List Nat)
  deriving DecidableEq

/-- The zero value of `InfoDict`. -/
def InfoDict.zero : InfoDict :=
  { PieceLength := 0, Pieces := [], Private := false, Name := [], Length := 0, Files := [],
    IsDirectory := false }

/-- The zero value of `TorrentFile`. -/
def TorrentFile.zero : TorrentFile :=
  { Announce := [], AnnounceList := [], CreationDate := none, Comment := [], CreatedBy := [],
    Encoding := [], Info := InfoDict.zero, InfoHash := [], PiecesHash := [] }

/-- Go's `calculateInfoHash`; the hash function `sha1.Sum` is a parameter. -/
def calculateInfoHash (sha1 : List Nat → List Nat) (info : List (List Nat × Value)) :
    Outcome (List Nat) :=
  match Encode (.dict info) with
  | .error e => .error (.infoHashFailed e)
  | .ok buf => .ok (sha1 buf)

/-- The inner loop of the `files` branch of `parseInfoDict`: every path segment
must be a `string`. -/
def parsePathList : List Value → Outcome (List (List Nat))
  | [] => .ok []
  | pathVal :: rest =>
    match pathVal with
    | .str path =>
      match parsePathList rest with
      | .ok paths => .ok (path :: paths)
      | .error e => .error e
      | .fault => .fault
    | _ => .error (.ErrInvalidInfoDict "path is not a string")

/-- One iteration of the `files` loop of `parseInfoDict`. -/
def parseFileDict (fileVal : Value) : Outcome FileDict :=
  match fileVal with
  | .dict fileDict =>
    match mapLookup fileDict (ascii "length") with
    | none => .error (.ErrInvalidInfoDict "no file length found")
    | some (.int fileLength) =>
      match mapLookup fileDict (ascii "path") with
      | none => .error (.ErrInvalidInfoDict "path of file is missing")
      | some (.list pathList) =>
        match parsePathList pathList with
        | .ok paths => .ok { Length := fileLength, Path := paths }
        | .error e => .error e
        | .fault => .fault
      | some _ => .error (.ErrInvalidInfoDict "path list is invalid")
    | some _ => .error (.ErrInvalidInfoDict "file length is not an integer")
  | _ => .error (.ErrInvalidInfoDict "invalid file dictionary")

/-- The `files` loop of `parseInfoDict`. -/
def parseFiles : List Value → Outcome (List FileDict)
  | [] => .ok []
  | fileVal :: rest =>
    match parseFileDict fileVal with
    | .ok fd =>
      match parseFiles rest with
      | .ok fds => .ok (fd :: fds)
      | .error e => .error e
      | .fault => .fault
    | .error e => .error e
    | .fault => .fault

/-- Go's `parseInfoDict`: the record behind the pointer is passed in and the
updated record is returned on success. -/
def parseInfoDict (info : List (List Nat × Value)) (infoDict : InfoDict) : Outcome InfoDict :=
  match mapLookup info (ascii "piece length") with
  | none => .error (.ErrInvalidInfoDict "no piece length")
  | some (.int pieceLength) =>
    let infoDict := { infoDict with PieceLength := pieceLength }
    match mapLookup info (ascii "pieces") with
    | none => .error (.ErrInvalidInfoDict "no pieces in info dictionary")
    | some (.bytes pieces) =>
      let infoDict := { infoDict with Pieces := pieces }
      let afterPrivate : Outcome InfoDict :=
        match mapLookup info (ascii "private") with
        | none => .ok infoDict
        | some (.int priv) => .ok { infoDict with Private := decide (priv = 1) }
        | some _ => .error (.ErrInvalidInfoDict "private is not an integer")
      match afterPrivate with
      | .error e => .error e
      | .fault => .fault
      | .ok infoDict =>
        let afterMode : Outcome InfoDict :=
          if (mapLookup info (ascii "files")).isSome then .ok { infoDict with IsDirectory := true }
          else if (mapLookup info (ascii "length")).isSome then
            .ok { infoDict with IsDirectory := false }
          else .error (.ErrInvalidInfoDict "no files nor length key")
        match afterMode with
        | .error e => .error e
        | .fault => .fault
        | .ok infoDict =>
          match mapLookup info (ascii "name") with
          | none =>
            .error (.ErrInvalidInfoDict "file to be downloaded has no file or folder name")
          | some (.str name) =>
            let infoDict := { infoDict with Name := name }
            if infoDict.IsDirectory then
              match mapLookup info (ascii "files") with
              | some (.list files) =>
                match parseFiles files with
                | .ok fds => .ok { infoDict with Files := fds }
                | .error e => .error e
                | .fault => .fault
              | _ => .error (.ErrInvalidInfoDict "files is not a list")
            else
              match mapLookup info (ascii "length") with
              | some (.int length) => .ok { infoDict with Length := length }
              | _ => .error (.ErrInvalidInfoDict "length is not an integer")
          | some _ => .error (.ErrInvalidInfoDict "invalid filename")
    | some _ => .error (.ErrInvalidInfoDict "pieces is not a byte string")
  | some _ => .error (.ErrInvalidInfoDict "piece length is not an integer")

/-- The inner loop of the `announce-list` branch of `Parse`. -/
def parseTier : List Value → Outcome (List (List Nat))
  | [] => .ok []
  | tracker :: rest =>
    match tracker with
    | .str trackerURL =>
      match parseTier rest with
      | .ok urls => .ok (trackerURL :: urls)
      | .error e => .error e
      | .fault => .fault
    | _ => .error (.ErrInvalidTorrentFile "tracker URL is not a string")

/-- The outer loop of the `announce-list` branch of `Parse`. -/
def parseAnnounceList : List Value → Outcome (List (List (List Nat)))
  | [] => .ok []
  | tier :: rest =>
    match tier with
    | .list tierList =>
      match parseTier tierList with
      | .ok urls =>
        match parseAnnounceList rest with
        | .ok tiers => .ok (urls :: tiers)
        | .error e => .error e
        | .fault => .fault
      | .error e => .error e
      | .fault => .fault
    | _ => .error (.ErrInvalidInfoDict "announce-list tier is not a list")

/-- An optional top-level key that must hold a `string`. -/
def optionalString (d : List (List Nat × Value)) (key : String) (msg : String) (dflt : List Nat) :
    Outcome (List Nat) :=
  match mapLookup d (ascii key) with
  | none => .ok dflt
  | some (.str s) => .ok s
  | some _ => .error (.ErrInvalidTorrentFile msg)

/-- The piece hashes: `pieces[i*20:(i+1)*20]` for `i` below `numPieces`. -/
def splitPieces (pieces : List Nat) (numPieces : Nat) : List (List Nat) :=
  (List.range numPieces).map (fun i => (pieces.drop (i * 20)).take 20)

/-- Go's `Parse`. The unchecked type assertion `announceVal.(string)` panics on
a value of another type. -/
def Parse (sha1 : List Nat → List Nat) (data : Value) : Outcome TorrentFile :=
  match data with
  | .dict d =>
    let t := TorrentFile.zero
    match mapLookup d (ascii "announce") with
    | none => .error (.ErrInvalidTorrentFile "missing announce url")
    | some (.str announce) =>
      let t := { t with Announce := announce }
      let afterAnnounceList : Outcome TorrentFile :=
        match mapLookup d (ascii "announce-list") with
        | none => .ok t
        | some (.list announceList) =>
          match parseAnnounceList announceList with
          | .ok tiers => .ok { t with AnnounceList := tiers }
          | .error e => .error e
          | .fault => .fault
        | some _ => .error (.ErrInvalidTorrentFile "announce-list is not a list")
      match afterAnnounceList with
      | .error e => .error e
      | .fault => .fault
      | .ok t =>
        let afterCreationDate : Outcome TorrentFile :=
          match mapLookup d (ascii "creation date") with
          | none => .ok t
          | some (.int creationDate) => .ok { t with CreationDate := some creationDate }
          | some _ => .error (.ErrInvalidTorrentFile "creation date not in unix seconds")
        match afterCreationDate with
        | .error e => .error e
        | .fault => .fault
        | .ok t =>
          match optionalString d "comment" "comment is not a string" t.Comment with
          | .error e => .error e
          | .fault => .fault
          | .ok comment =>
            let t := { t with Comment := comment }
            match optionalString d "created by" "created by is not a string" t.CreatedBy with
            | .error e => .error e
            | .fault => .fault
            | .ok createdBy =>
              let t := { t with CreatedBy := createdBy }
              match optionalString d "encoding" "encoding format is not a string" t.Encoding with
              | .error e => .error e
              | .fault => .fault
              | .ok encoding =>
                let t := { t with Encoding := encoding }
                match mapLookup d (ascii "info") with
                | none => .error (.ErrInvalidTorrentFile "no info dictionary")
                | some (.dict info) =>
                  match parseInfoDict info t.Info with
                  | .error e => .error e
                  | .fault => .fault
                  | .ok infoDict =>
                    let t := { t with Info := infoDict }
                    match calculateInfoHash sha1 info with
                    | .error e => .error e
                    | .fault => .fault
                    | .ok infoHash =>
                      let t := { t with InfoHash := infoHash }
                      let pieces := t.Info.Pieces
                      if pieces.length % 20 ≠ 0 then
                        .error (.ErrInvalidInfoDict "pieces field length is not multiple of 20")
                      else
                        let numPieces := pieces.length / 20
                        .ok { t with PiecesHash := splitPieces pieces numPieces }
                | some _ => .error (.ErrInvalidTorrentFile "info is not a dictionary")
    | some _ => .fault
  | _ => .error (.ErrInvalidTorrentFile "")

end Torrent

namespace Torrent

open Bencode

/-! ## file.go -/

/-- The value an `int64` operation keeps of the exact result `x`: its
two's-complement wrap into the signed 64-bit range. -/
def wrapInt64 (x : Int) : Int := (x + 2 ^ 63) % 2 ^ 64 - 2 ^ 63

/-- Go's `TotalLength`: the loop adds the file lengths in `int64`. -/
def TotalLength (t : TorrentFile) : Int :=
  if ¬ t.Info.IsDirectory then t.Info.Length
  else t.Info.Files.foldl (fun length file => wrapInt64 (length + file.Length)) 0

/-- Go's `NumPieces`. -/
def NumPieces (t : TorrentFile) : Int := t.PiecesHash.length

/-- Go's `PieceSize`. The operator `%` is the truncated remainder and panics on
a zero divisor. -/
def PieceSize (t : TorrentFile) (index : Int) : Outcome Int :=
  if index < 0 ∨ index ≥ NumPieces t then .ok 0
  else if index < NumPieces t - 1 then .ok t.Info.PieceLength
  else if t.Info.PieceLength = 0 then .fault
  else
    let lastPieceSize := (TotalLength t).tmod t.Info.PieceLength
    if lastPieceSize = 0 then .ok t.Info.PieceLength else .ok lastPieceSize

/-- The loop of `FilePathForPiece` over the files; `join` is `filepath.Join`. -/
def filePathLoop (join : List (List Nat) → List Nat) (name : List Nat)
    (pieceOffset pieceEnd : Int) : List FileDict → Int → List (List Nat) → List (List Nat)
  | [], _, result => result
  | file :: files, currentOffset, result =>
    let fileStart := currentOffset
    let fileEnd := wrapInt64 (fileStart + file.Length)
    let result :=
      if fileEnd > pieceOffset ∧ fileStart < pieceEnd then result ++ [join (name :: file.Path)]
      else result
    filePathLoop join name pieceOffset pieceEnd files fileEnd result

/-- Go's `FilePathForPiece`; the library function `filepath.Join` is a parameter. -/
def FilePathForPiece (join : List (List Nat) → List Nat) (t : TorrentFile) (index : Int) :
    Outcome (List (List Nat)) :=
  if index < 0 ∨ index ≥ NumPieces t then .ok []
  else if ¬ t.Info.IsDirectory then .ok [t.Info.Name]
  else
    let pieceOffset := wrapInt64 (index * t.Info.PieceLength)
    match PieceSize t index with
    | .error e => .error e
    | .fault => .fault
    | .ok size =>
      let pieceEnd := wrapInt64 (pieceOffset + size)
      .ok (filePathLoop join t.Info.Name pieceOffset pieceEnd t.Info.Files 0 [])

end Torrent

namespace Tracker

open Bencode

/-! ## tracker.go and announce.go -/

/-- Go's `Peer`: `ID` holds 20 bytes, `IP` the bytes of the `net.IP`. -/
structure Peer where
  ID : List Nat
  IP : List Nat
  Port : Int
  deriving DecidableEq

/-- Go's `AnnounceResponse`. -/
structure AnnounceResponse where
  Interval : Int
  Peers : List Peer
  Complete : Int
  Incomplete : Int
  deriving DecidableEq

/-- Errors built by `fmt.Errorf`: `text` is an error with the given message,
`wrapDecode` the decoder error wrapped with `: invalid tracker response`, and
`wrap` an error wrapped (`%w`) with the given suffix. -/
inductive Err where
  | text (msg : List Nat)
  | wrapDecode (e : Bencode.Err)
  | wrap (inner : Err) (suffix : String)
  deriving DecidableEq

/-- Outcome of a call: a value, a returned error, or a run-time panic. -/
inductive Outcome (α : Type) where
  | ok (v : α)
  | error (e : Err)
  | fault
  deriving DecidableEq

/-- The zero value of `Peer`. -/
def Peer.zero : Peer := { ID := List.replicate 20 0, IP := [], Port := 0 }

/-- The zero value of `AnnounceResponse`. -/
def AnnounceResponse.zero : AnnounceResponse :=
  { Interval := 0, Peers := [], Complete := 0, Incomplete := 0 }

/-- Go's `binary.BigEndian.Uint16` on a slice of two bytes:
`uint16(b[1]) | uint16(b[0])<<8`. -/
def Uint16 (b : List Nat) : Nat := b.getD 0 0 * 256 + b.getD 1 0

/-- Go's `parseCompactPeers`. -/
def parseCompactPeers (body : List Nat) : Outcome (List Peer) :=
  if body.length % 6 ≠ 0 then
    .error (.text (FormatInt body.length ++ ascii ": invalid compact peers length"))
  else
    let numPeers := body.length / 6
    .ok ((List.range numPeers).map (fun i =>
      let offset := i * 6
      { Peer.zero with
        IP := (body.drop offset).take 4
        Port := (Uint16 ((body.drop (offset + 4)).take 2) : Nat) }))

/-- Go's `copy(peers[i].ID[:], []byte(peerIDStr))` into a zeroed array of 20 bytes. -/
def copyID (peerIDStr : List Nat) : List Nat :=
  peerIDStr.take 20 ++ List.replicate (20 - peerIDStr.length) 0

/-- One iteration of the loop of `parseNonCompactPeers` for the peer at index
`i`; `parseIP` is `net.ParseIP`, with `none` for its `nil` result. -/
def parsePeerDict (parseIP : List Nat → Option (List Nat)) (i : Nat) (peerData : Value) :
    Outcome Peer :=
  match peerData with
  | .dict peerDict =>
    let afterID : Outcome Peer :=
      match mapLookup peerDict (ascii "peer id") with
      | none => .ok Peer.zero
      | some (.str peerIDStr) => .ok { Peer.zero with ID := copyID peerIDStr }
      | some _ => .error (.text (ascii "peer " ++ FormatInt i ++ ascii " has invalid peer id"))
    match afterID with
    | .error e => .error e
    | .fault => .fault
    | .ok peer =>
      match mapLookup peerDict (ascii "ip") with
      | none => .error (.text (ascii "peer " ++ FormatInt i ++ ascii " has invalid ip"))
      | some (.str ipStr) =>
        match parseIP ipStr with
        | none =>
          .error (.text (ascii "peer " ++ FormatInt i ++ ascii " has invalid ip address: " ++
            ipStr))
        | some ip =>
          let peer := { peer with IP := ip }
          match mapLookup peerDict (ascii "port") with
          | none => .error (.text (ascii "peer " ++ FormatInt i ++ ascii " missing port"))
          | some (.int port) => .ok { peer with Port := port }
          | some _ => .error (.text (ascii "peer " ++ FormatInt i ++ ascii " has invalid port"))
      | some _ => .error (.text (ascii "peer " ++ FormatInt i ++ ascii " has invalid ip"))
  | _ => .error (.text (ascii "peer " ++ FormatInt i ++ ascii " is not a dictionary"))

/-- The loop of `parseNonCompactPeers` from index `i` on. -/
def parseNonCompactPeersFrom (parseIP : List Nat → Option (List Nat)) :
    Nat → List Value → Outcome (List Peer)
  | _, [] => .ok []
  | i, peerData :: rest =>
    match parsePeerDict parseIP i peerData with
    | .error e => .error e
    | .fault => .fault
    | .ok peer =>
      match parseNonCompactPeersFrom parseIP (i + 1) rest with
      | .error e => .error e
      | .fault => .fault
      | .ok peers => .ok (peer :: peers)

/-- Go's `parseNonCompactPeers`. -/
def parseNonCompactPeers (parseIP : List Nat → Option (List Nat)) (body : List Value) :
    Outcome (List Peer) :=
  parseNonCompactPeersFrom parseIP 0 body

/-- Go's `parseAnnounceParams`. The assertions `intervalVal.(int)` and
`completeVal.(int)` fail on every value that `Decode` produces (`string`,
`int64`, `[]any`, `map[string]any`); the key `incomplete` is not read. After a
successful `Decode` the variable `err` is `nil`, which `%w` prints as
`%!w(<nil>)`. The recursion budget of `Decode` is never exhausted
(`Decode_ne_outOfFuel`), so the `outOfFuel` branch is never taken. -/
def parseAnnounceParams (parseIP : List Nat → Option (List Nat)) (body : List Nat) :
    Outcome AnnounceResponse :=
  match Decode body with
  | .error e => .error (.wrapDecode e)
  | .fault => .fault
  | .outOfFuel => .fault
  | .ok decoded _ =>
    match decoded with
    | .dict dict =>
      match mapLookup dict (ascii "failure reason") with
      | some (.str reason) => .error (.text (reason ++ ascii ": tracker error"))
      | some _ => .error (.text (ascii "invalid failure reason format from tracker"))
      | none =>
        let resp := AnnounceResponse.zero
        match mapLookup dict (ascii "interval") with
        | some _ => .error (.text (ascii "invalid interval value"))
        | none =>
          match mapLookup dict (ascii "complete") with
          | some _ => .error (.text (ascii "invalid complete value"))
          | none =>
            match mapLookup dict (ascii "peers") with
            | none => .ok resp
            | some (.str peers) =>
              match parseCompactPeers peers with
              | .error e => .error (.wrap e ": failed to parse compact peers")
              | .fault => .fault
              | .ok ps => .ok { resp with Peers := ps }
            | some (.list peers) =>
              match parseNonCompactPeers parseIP peers with
              | .error e => .error (.wrap e ": failed to parse non-compact peers")
              | .fault => .fault
              | .ok ps => .ok { resp with Peers := ps }
            | some _ => .error (.text (ascii "invalid peers format"))
    | _ => .error (.text (ascii "%!w(<nil>): invalid tracker response"))

end Tracker

/-! # Specification-side definitions -/

namespace Bencode

/-- Value of a digit string read as a decimal numeral. -/
def decimalValue (ds : List Nat) : Nat := ds.foldl (fun n c => n * 10 + (c - 48)) 0

/-- A minimal decimal numeral: at least one byte, ASCII digits only (so no sign),
and no leading zero unless the numeral is `0` itself. -/
def MinimalDecimal (ds : List Nat) : Prop :=
  ds ≠ [] ∧ (∀ c ∈ ds, 48 ≤ c ∧ c ≤ 57) ∧ (ds.head? = some 48 → ds = [48])

/-- Well-formed canonical bencode text.

* a byte string is a minimal decimal length, `:`, and that many bytes;
* an integer is `i`, a minimal decimal within the signed 64-bit range with an
  optional `-` (never `-0`), and `e`;
* a list is `l`, canonical values, and `e`;
* a dictionary is `d`, pairs of a byte-string key and a canonical value with
  the keys strictly ascending by raw bytes, and `e`. An entry is the triple of
  the key's length digits, the key, and the text of the value. -/
inductive Canonical : List Nat → Prop where
  | str (ds s : List Nat) (hd : MinimalDecimal ds) (hl : decimalValue ds = s.length) :
      Canonical (ds ++ 58 :: s)
  | nonneg (ds : List Nat) (hd : MinimalDecimal ds) (hr : decimalValue ds < 2 ^ 63) :
      Canonical (105 :: ds ++ [101])
  | neg (ds : List Nat) (hd : MinimalDecimal ds) (hz : ds ≠ [48])
      (hr : decimalValue ds ≤ 2 ^ 63) : Canonical (105 :: 45 :: ds ++ [101])
  | list (items : List (List Nat)) (hi : ∀ b ∈ items, Canonical b) :
      Canonical (108 :: items.flatten ++ [101])
  | dict (entries : List (List Nat × List Nat × List Nat))
      (hk : ∀ e ∈ entries, MinimalDecimal e.1 ∧ decimalValue e.1 = e.2.1.length)
      (hs : (entries.map (fun e => e.2.1)).Sorted (· < ·))
      (hv : ∀ e ∈ entries, Canonical e.2.2) :
      Canonical (100 :: (entries.map (fun e => e.1 ++ 58 :: e.2.1 ++ e.2.2)).flatten ++ [101])

/-- The text of a dictionary body whose pairs are written in the order of the
list: each key as a byte string, then the encoding of its value, then the
closing `e`; the first value that cannot be encoded gives its error. -/
def emitPairs : List (List Nat × Value) → Except Err (List Nat)
  | [] => .ok [101]
  | (k, v) :: ps =>
    match encodeValue v with
    | .error e => .error e
    | .ok out =>
      match emitPairs ps with
      | .error e => .error e
      | .ok tail => .ok (encodeString k ++ out ++ tail)

/-- The text of a dictionary whose pairs are written in the order of the list. -/
def emitDict (ps : List (List Nat × Value)) : Except Err (List Nat) :=
  match emitPairs ps with
  | .error e => .error e
  | .ok out => .ok (100 :: out)

/-- The pairs of the map `d` for the keys `ks`, in the order of `ks`. -/
def pairsOf (d : List (List Nat × Value)) (ks : List (List Nat)) : List (List Nat × Value) :=
  ks.filterMap (fun k => (mapLookup d k).map (fun v => (k, v)))

end Bencode

namespace Torrent

open Bencode

/-- The record `fd` holds the fields of the element `fileVal` of `files`: the
element is a dictionary whose `length` is the integer `fd.Length` and whose
`path` is the list of the strings `fd.Path`. -/
def FileEntryOf (fileVal : Value) (fd : FileDict) : Prop :=
  ∃ fileDict, fileVal = .dict fileDict ∧
    mapLookup fileDict (ascii "length") = some (.int fd.Length) ∧
    mapLookup fileDict (ascii "path") = some (.list (fd.Path.map Value.str))

end Torrent

namespace Torrent

/-- The files with their start offsets: a file starts at `start` plus the sum of
the lengths of the files before it. -/
def withStarts : List FileDict → Int → List (Int × FileDict)
  | [], _ => []
  | f :: fs, start => (start, f) :: withStarts fs (start + f.Length)

/-- The byte range `[start, start + Length)` of the file and the byte range
`[a, b)` of the piece have a byte in common. -/
def overlapsPiece (a b : Int) (sf : Int × FileDict) : Bool :=
  decide (max sf.1 a < min (sf.1 + sf.2.Length) b)

/-- The file is empty and starts strictly inside the byte range `[a, b)`. -/
def emptyInsidePiece (a b : Int) (sf : Int × FileDict) : Bool :=
  decide (sf.2.Length = 0 ∧ a < sf.1 ∧ sf.1 < b)

end Torrent

namespace Bencode

mutual

/-- The value trees of the codec: byte strings, signed 64-bit integers, lists,
and dictionaries with unique byte-string keys (a Go string has a length that
fits an `int`). -/
def WellFormed : Value → Prop
  | .str s => s.length < 2 ^ 63
  | .int n => -2 ^ 63 ≤ n ∧ n < 2 ^ 63
  | .list l => WellFormedList l
  | .dict d => (d.map Prod.fst).Nodup ∧ WellFormedEntries d
  | .bytes _ => False

/-- Every item of the list is well formed. -/
def WellFormedList : List Value → Prop
  | [] => True
  | v :: l => WellFormed v ∧ WellFormedList l

/-- Every key is a Go string and every value is well formed. -/
def WellFormedEntries : List (List Nat × Value) → Prop
  | [] => True
  | (k, v) :: d => k.length < 2 ^ 63 ∧ WellFormed v ∧ WellFormedEntries d

end

mutual

/-- Equality of value trees as Go values: lists agree item by item in the same
order, dictionaries have the same keys and equal values under each key. -/
def SameValue : Value → Value → Prop
  | .str s, w => w = .str s
  | .int n, w => w = .int n
  | .list l, w => ∃ l1, w = .list l1 ∧ SameList l l1
  | .dict d, w => ∃ d1, w = .dict d1 ∧ (d1.map Prod.fst).Nodup ∧
      (d1.map Prod.fst).Perm (d.map Prod.fst) ∧ SameEntries d d1
  | .bytes b, w => w = .bytes b

/-- The two lists have the same length and equal items at each position. -/
def SameList : List Value → List Value → Prop
  | [], l1 => l1 = []
  | v :: l, l1 => ∃ w l2, l1 = w :: l2 ∧ SameValue v w ∧ SameList l l2

/-- Every pair of the first map has its key in the second map, with an equal value. -/
def SameEntries : List (List Nat × Value) → List (List Nat × Value) → Prop
  | [], _ => True
  | (k, v) :: d, d1 => (∃ w, mapLookup d1 k = some w ∧ SameValue v w) ∧ SameEntries d d1

end

mutual

/-- The value with the pairs of every dictionary arranged by ascending key. -/
def normalize : Value → Value
  | .str s => .str s
  | .int n => .int n
  | .list l => .list (normalizeList l)
  | .dict d => .dict (pairsOf (normalizeEntries d) (sortStrings (d.map Prod.fst)))
  | .bytes b => .bytes b

/-- The list of the normalized items. -/
def normalizeList : List Value → List Value
  | [] => []
  | v :: l => normalize v :: normalizeList l

/-- The pairs with normalized values, in the same order. -/
def normalizeEntries : List (List Nat × Value) → List (List Nat × Value)
  | [] => []
  | (k, v) :: d => (k, normalize v) :: normalizeEntries d

end

end Bencode

/-! # Theorems -/

namespace Bencode

/-! ## strconv lemmas -/

theorem foldl_decimal_ge (ds : List Nat) (n : Nat) :
    n ≤ ds.foldl (fun n c => n * 10 + (c - 48)) n := by
  induction ds generalizing n with
  | nil => simp
  | cons c cs ih =>
    simp only [List.foldl_cons]
    exact le_trans (by omega) (ih (n * 10 + (c - 48)))

theorem parseUintLoop_digits (ds : List Nat) (n : Nat)
    (hd : ∀ c ∈ ds, 48 ≤ c ∧ c ≤ 57)
    (hlt : ds.foldl (fun n c => n * 10 + (c - 48)) n < 2 ^ 64) :
    parseUintLoop ds n = .ok (ds.foldl (fun n c => n * 10 + (c - 48)) n) := by
  induction ds generalizing n with
  | nil => simp [parseUintLoop]
  | cons c cs ih =>
    have hc := hd c (List.mem_cons_self _ _)
    simp only [List.foldl_cons] at hlt ⊢
    have hge := foldl_decimal_ge cs (n * 10 + (c - 48))
    have h1 : n * 10 + (c - 48) < 2 ^ 64 := lt_of_le_of_lt hge hlt
    have hmod : (n * 10 + (c - 48)) % 2 ^ 64 = n * 10 + (c - 48) := Nat.mod_eq_of_lt h1
    have hn : ¬ n ≥ (2 ^ 64 - 1) / 10 + 1 := by
      norm_num at h1 ⊢
      omega
    have h2 : ¬ (n * 10 + (c - 48) < n * 10 ∨ n * 10 + (c - 48) > 2 ^ 64 - 1) := by
      omega
    rw [parseUintLoop]
    simp only [hc, and_self, if_true, hn, if_false, hmod]
    rw [if_neg h2]
    exact ih _ (fun c h => hd c (List.mem_cons_of_mem _ h)) hlt

theorem ParseUint_minimal (ds : List Nat) (hm : MinimalDecimal ds) (hlt : decimalValue ds < 2 ^ 64) :
    ParseUint ds = .ok (decimalValue ds) := by
  unfold ParseUint
  rw [if_neg hm.1]
  exact parseUintLoop_digits ds 0 hm.2.1 hlt

theorem formatBits_eq (n : Nat) : ∀ fuel acc, n < fuel →
    formatBits fuel n acc = FormatUint n ++ acc := by
  induction n using Nat.strong_induction_on with
  | _ n ih =>
    intro fuel acc hf
    obtain ⟨f, rfl⟩ : ∃ f, fuel = f + 1 := ⟨fuel - 1, by omega⟩
    by_cases h10 : n < 10
    · simp [FormatUint, formatBits, h10]
    · have hdiv : n / 10 < n := by omega
      have hdivf : n / 10 < f := by omega
      have e : FormatUint n = FormatUint (n / 10) ++ [48 + n % 10] := by
        show formatBits (n + 1) n [] = _
        rw [formatBits, if_neg h10, ih _ hdiv n _ hdiv]
      rw [formatBits, if_neg h10, ih _ hdiv f _ hdivf, e]
      simp

theorem FormatUint_lt (n : Nat) (h : n < 10) : FormatUint n = [48 + n] := by
  simp [FormatUint, formatBits, h]

theorem FormatUint_ge (n : Nat) (h : 10 ≤ n) :
    FormatUint n = FormatUint (n / 10) ++ [48 + n % 10] := by
  have h10 : ¬ n < 10 := by omega
  have hdiv : n / 10 < n := by omega
  conv_lhs => unfold FormatUint
  rw [formatBits, if_neg h10, formatBits_eq _ n _ hdiv]

theorem decimalValue_append (ds : List Nat) (c : Nat) :
    decimalValue (ds ++ [c]) = decimalValue ds * 10 + (c - 48) := by
  simp [decimalValue, List.foldl_append]

theorem decimalValue_pos (ds : List Nat) (hne : ds ≠ [])
    (hd : ∀ c ∈ ds, 48 ≤ c ∧ c ≤ 57) (h0 : ds.head? ≠ some 48) : 0 < decimalValue ds := by
  cases ds with
  | nil => exact absurd rfl hne
  | cons c cs =>
    have hc := hd c (List.mem_cons_self _ _)
    have hc48 : c ≠ 48 := by
      intro h
      apply h0
      simp [h]
    have := foldl_decimal_ge cs (0 * 10 + (c - 48))
    simp only [decimalValue, List.foldl_cons]
    omega

theorem FormatUint_decimalValue (ds : List Nat) (hm : MinimalDecimal ds) :
    FormatUint (decimalValue ds) = ds := by
  obtain ⟨hne, hd, h0⟩ := hm
  induction ds using List.reverseRecOn with
  | nil => exact absurd rfl hne
  | append_singleton init c ih =>
    have hc := hd c (by simp)
    rw [decimalValue_append]
    by_cases hinit : init = []
    · subst hinit
      have : decimalValue [] = 0 := rfl
      rw [this, FormatUint_lt _ (by omega)]
      simp
      omega
    · have hdi : ∀ c ∈ init, 48 ≤ c ∧ c ≤ 57 := fun c h => hd c (by simp [h])
      have hhead : (init ++ [c]).head? = init.head? := by
        cases init with
        | nil => exact absurd rfl hinit
        | cons a as => rfl
      have h0i : init.head? ≠ some 48 := by
        intro h
        have := h0 (hhead.trans h)
        have hl := congrArg List.length this
        simp at hl
        exact hinit hl
      have hpos := decimalValue_pos init hinit hdi h0i
      have ihi := ih hinit hdi (fun h => absurd h h0i)
      rw [FormatUint_ge _ (by omega)]
      have e1 : (decimalValue init * 10 + (c - 48)) / 10 = decimalValue init := by omega
      have e2 : 48 + (decimalValue init * 10 + (c - 48)) % 10 = c := by omega
      rw [e1, e2, ihi]

end Bencode

namespace Bencode

/-! ## readUntil, ReadFull, decodeString, decodeInt -/

theorem readUntilLoop_append (delim : Nat) (s rest acc : List Nat) (h : delim ∉ s) :
    readUntilLoop delim (s ++ delim :: rest) acc = .ok (acc ++ s) rest := by
  induction s generalizing acc with
  | nil => simp [readUntilLoop]
  | cons b bs ih =>
    have hb : b ≠ delim := fun e => h (by simp [e])
    have hbs : delim ∉ bs := fun e => h (by simp [e])
    rw [List.cons_append, readUntilLoop, if_neg hb, ih _ hbs]
    simp

theorem readUntilLoop_inv (delim : Nat) (input acc r rest : List Nat)
    (h : readUntilLoop delim input acc = .ok r rest) :
    ∃ s, r = acc ++ s ∧ input = s ++ delim :: rest ∧ delim ∉ s := by
  induction input generalizing acc with
  | nil => simp [readUntilLoop] at h
  | cons b bs ih =>
    rw [readUntilLoop] at h
    by_cases hb : b = delim
    · rw [if_pos hb] at h
      injection h with h1 h2
      exact ⟨[], by simp [h1], by simp [hb, h2], by simp⟩
    · rw [if_neg hb] at h
      obtain ⟨s, hr, hi, hn⟩ := ih _ h
      refine ⟨b :: s, by simp [hr], by simp [hi], ?_⟩
      intro hm
      rcases List.mem_cons.mp hm with e | e
      · exact hb e.symm
      · exact hn e

theorem readUntilLoop_total (delim : Nat) (input acc : List Nat) :
    readUntilLoop delim input acc = .error .EOF ∨
      ∃ r rest, readUntilLoop delim input acc = .ok r rest := by
  induction input generalizing acc with
  | nil => left; rfl
  | cons b bs ih =>
    rw [readUntilLoop]
    by_cases hb : b = delim
    · rw [if_pos hb]; right; exact ⟨_, _, rfl⟩
    · rw [if_neg hb]; exact ih _

theorem readUntil_append (s rest : List Nat) (delim : Nat) (h : delim ∉ s) :
    readUntil (s ++ delim :: rest) delim = .ok s rest := by
  simpa [readUntil] using readUntilLoop_append delim s rest [] h

theorem readUntil_inv (input r rest : List Nat) (delim : Nat)
    (h : readUntil input delim = .ok r rest) : input = r ++ delim :: rest ∧ delim ∉ r := by
  obtain ⟨s, hr, hi, hn⟩ := readUntilLoop_inv delim input [] r rest h
  simp at hr
  subst hr
  exact ⟨hi, hn⟩

theorem readUntil_total (input : List Nat) (delim : Nat) :
    readUntil input delim = .error .EOF ∨ ∃ r rest, readUntil input delim = .ok r rest :=
  readUntilLoop_total delim input []

theorem ReadFull_append (input t s rest : List Nat) (n : Nat)
    (h : ReadFull input n = .ok s rest) : ReadFull (input ++ t) n = .ok s (rest ++ t) := by
  unfold ReadFull at h ⊢
  by_cases hn : n ≤ input.length
  · rw [if_pos hn] at h
    have hn2 : n ≤ (input ++ t).length := by simp; omega
    rw [if_pos hn2]
    injection h with h1 h2
    rw [List.take_append_of_le_length hn, List.drop_append_of_le_length hn, h1, h2]
  · rw [if_neg hn] at h
    split at h <;> simp at h

theorem ReadFull_length (input s rest : List Nat) (n : Nat)
    (h : ReadFull input n = .ok s rest) : rest.length ≤ input.length ∧ input = s ++ rest := by
  unfold ReadFull at h
  by_cases hn : n ≤ input.length
  · rw [if_pos hn] at h
    injection h with h1 h2
    subst h1 h2
    simp
  · rw [if_neg hn] at h
    split at h <;> simp at h

theorem ReadFull_exact (s rest : List Nat) : ReadFull (s ++ rest) s.length = .ok s rest := by
  unfold ReadFull
  rw [if_pos (by simp)]
  simp

theorem decodeString_append (input t s rest : List Nat)
    (h : decodeString input = .ok s rest) : decodeString (input ++ t) = .ok s (rest ++ t) := by
  unfold decodeString at h ⊢
  split at h
  · next lengthStr rest0 heq =>
    obtain ⟨hi, hn⟩ := readUntil_inv _ _ _ _ heq
    have : readUntil (input ++ t) 58 = .ok lengthStr (rest0 ++ t) := by
      rw [hi, List.append_assoc, List.cons_append]
      exact readUntil_append _ _ _ hn
    rw [this]
    simp only
    split at h
    · simp at h
    · next length hlen =>
      split at h
      · simp at h
      · next hneg =>
        rw [if_neg hneg]
        exact ReadFull_append _ _ _ _ _ h
  · simp at h
  · simp at h
  · simp at h

theorem decodeString_length (input s rest : List Nat)
    (h : decodeString input = .ok s rest) : rest.length < input.length := by
  unfold decodeString at h
  split at h
  · next lengthStr rest0 heq =>
    obtain ⟨hi, _⟩ := readUntil_inv _ _ _ _ heq
    split at h
    · simp at h
    · split at h
      · simp at h
      · have := (ReadFull_length _ _ _ _ h).1
        rw [hi]
        simp
        omega
  · simp at h
  · simp at h
  · simp at h

theorem decodeString_ne_outOfFuel (input : List Nat) : decodeString input ≠ .outOfFuel := by
  unfold decodeString
  rcases readUntil_total input 58 with h | ⟨r, rest, h⟩
  · rw [h]; simp
  · rw [h]
    simp only
    split
    · simp
    · split
      · simp
      · unfold ReadFull
        split
        · simp
        · split <;> simp

theorem decodeInt_append (input t : List Nat) (n : Int) (rest : List Nat)
    (h : decodeInt input = .ok n rest) : decodeInt (input ++ t) = .ok n (rest ++ t) := by
  unfold decodeInt at h
  cases input with
  | nil => simp at h
  | cons b input1 =>
    simp only at h
    split at h
    · next numStr rest0 heq =>
      obtain ⟨hi, hn⟩ := readUntil_inv _ _ _ _ heq
      have hr : readUntil (input1 ++ t) 101 = .ok numStr (rest0 ++ t) := by
        rw [hi, List.append_assoc, List.cons_append]
        exact readUntil_append _ _ _ hn
      simp only [decodeInt, List.cons_append, hr]
      split at h
      · simp at h
      · next h1 =>
        rw [if_neg h1]
        split at h
        · simp at h
        · next h2 =>
          rw [if_neg h2]
          split at h
          · simp at h
          · next num hnum =>
            injection h with e1 e2
            rw [e1, e2]
    · simp at h
    · simp at h
    · simp at h

theorem decodeInt_length (input : List Nat) (n : Int) (rest : List Nat)
    (h : decodeInt input = .ok n rest) : rest.length < input.length := by
  unfold decodeInt at h
  cases input with
  | nil => simp at h
  | cons b input1 =>
    simp only at h
    split at h
    · next numStr rest0 heq =>
      obtain ⟨hi, _⟩ := readUntil_inv _ _ _ _ heq
      split at h
      · simp at h
      · split at h
        · simp at h
        · split at h
          · simp at h
          · injection h with e1 e2
            subst e2
            rw [hi]
            simp
            omega
    · simp at h
    · simp at h
    · simp at h

theorem decodeInt_ne_outOfFuel (input : List Nat) : decodeInt input ≠ .outOfFuel := by
  unfold decodeInt
  cases input with
  | nil => simp
  | cons b input1 =>
    simp only
    rcases readUntil_total input1 101 with h | ⟨r, rest, h⟩
    · rw [h]; simp
    · rw [h]
      simp only
      split
      · simp
      · split
        · simp
        · split <;> simp

end Bencode

namespace Bencode

/-! ## The recursive decoder: trailing bytes, consumption, recursion budget -/

theorem decodeNext_succ_cons (fuel b : Nat) (bs : List Nat) :
    decodeNext (fuel + 1) (b :: bs) =
      if 48 ≤ b ∧ b ≤ 57 then
        match decodeString (b :: bs) with
        | .ok s rest => .ok (.str s) rest
        | .error e => .error e
        | .fault => .fault
        | .outOfFuel => .outOfFuel
      else if b = 105 then
        match decodeInt (b :: bs) with
        | .ok n rest => .ok (.int n) rest
        | .error e => .error e
        | .fault => .fault
        | .outOfFuel => .outOfFuel
      else if b = 108 then
        match decodeListLoop fuel bs [] with
        | .ok l rest => .ok (.list l) rest
        | .error e => .error e
        | .fault => .fault
        | .outOfFuel => .outOfFuel
      else if b = 100 then
        match decodeDictLoop fuel bs [] with
        | .ok d rest => .ok (.dict d) rest
        | .error e => .error e
        | .fault => .fault
        | .outOfFuel => .outOfFuel
      else .error .ErrInvalidBencode := by
  rw [decodeNext]

theorem decodeListLoop_succ_cons (fuel b : Nat) (bs : List Nat) (list : List Value) :
    decodeListLoop (fuel + 1) (b :: bs) list =
      if b = 101 then .ok list bs
      else
        match decodeNext fuel (b :: bs) with
        | .ok item rest1 => decodeListLoop fuel rest1 (list ++ [item])
        | .error e => .error e
        | .fault => .fault
        | .outOfFuel => .outOfFuel := by
  rw [decodeListLoop]

theorem decodeDictLoop_succ_cons (fuel b : Nat) (bs : List Nat) (dict : List (List Nat × Value)) :
    decodeDictLoop (fuel + 1) (b :: bs) dict =
      if b = 101 then .ok dict bs
      else
        match decodeString (b :: bs) with
        | .ok key rest1 =>
          match decodeNext fuel rest1 with
          | .ok value rest2 => decodeDictLoop fuel rest2 (mapInsert dict key value)
          | .error e => .error e
          | .fault => .fault
          | .outOfFuel => .outOfFuel
        | .error e => .error e
        | .fault => .fault
        | .outOfFuel => .outOfFuel := by
  rw [decodeDictLoop]

theorem decode_append_aux (t : List Nat) : ∀ fuel,
    (∀ input v rest, decodeNext fuel input = .ok v rest →
        decodeNext fuel (input ++ t) = .ok v (rest ++ t)) ∧
    (∀ input acc l rest, decodeListLoop fuel input acc = .ok l rest →
        decodeListLoop fuel (input ++ t) acc = .ok l (rest ++ t)) ∧
    (∀ input acc d rest, decodeDictLoop fuel input acc = .ok d rest →
        decodeDictLoop fuel (input ++ t) acc = .ok d (rest ++ t)) := by
  intro fuel
  induction fuel with
  | zero =>
    refine ⟨?_, ?_, ?_⟩
    · intro input v rest h; simp [decodeNext] at h
    · intro input acc l rest h; simp [decodeListLoop] at h
    · intro input acc d rest h; simp [decodeDictLoop] at h
  | succ fuel ih =>
    obtain ⟨ihN, ihL, ihD⟩ := ih
    refine ⟨?_, ?_, ?_⟩
    · intro input v rest h
      cases input with
      | nil => simp [decodeNext] at h
      | cons b bs =>
        rw [decodeNext_succ_cons] at h
        rw [List.cons_append, decodeNext_succ_cons]
        by_cases h1 : 48 ≤ b ∧ b ≤ 57
        · rw [if_pos h1] at h ⊢
          cases hs : decodeString (b :: bs) with
          | ok s r =>
            rw [hs] at h
            have := decodeString_append _ t _ _ hs
            rw [List.cons_append] at this
            rw [this]
            simp only at h ⊢
            injection h with e1 e2
            rw [e1, e2]
          | error e => rw [hs] at h; simp at h
          | fault => rw [hs] at h; simp at h
          | outOfFuel => rw [hs] at h; simp at h
        · rw [if_neg h1] at h ⊢
          by_cases h2 : b = 105
          · rw [if_pos h2] at h ⊢
            cases hs : decodeInt (b :: bs) with
            | ok s r =>
              rw [hs] at h
              have := decodeInt_append _ t _ _ hs
              rw [List.cons_append] at this
              rw [this]
              simp only at h ⊢
              injection h with e1 e2
              rw [e1, e2]
            | error e => rw [hs] at h; simp at h
            | fault => rw [hs] at h; simp at h
            | outOfFuel => rw [hs] at h; simp at h
          · rw [if_neg h2] at h ⊢
            by_cases h3 : b = 108
            · rw [if_pos h3] at h ⊢
              cases hs : decodeListLoop fuel bs [] with
              | ok s r =>
                rw [hs] at h
                rw [ihL _ _ _ _ hs]
                simp only at h ⊢
                injection h with e1 e2
                rw [e1, e2]
              | error e => rw [hs] at h; simp at h
              | fault => rw [hs] at h; simp at h
              | outOfFuel => rw [hs] at h; simp at h
            · rw [if_neg h3] at h ⊢
              by_cases h4 : b = 100
              · rw [if_pos h4] at h ⊢
                cases hs : decodeDictLoop fuel bs [] with
                | ok s r =>
                  rw [hs] at h
                  rw [ihD _ _ _ _ hs]
                  simp only at h ⊢
                  injection h with e1 e2
                  rw [e1, e2]
                | error e => rw [hs] at h; simp at h
                | fault => rw [hs] at h; simp at h
                | outOfFuel => rw [hs] at h; simp at h
              · rw [if_neg h4] at h
                simp at h
    · intro input acc l rest h
      cases input with
      | nil => simp [decodeListLoop] at h
      | cons b bs =>
        rw [decodeListLoop_succ_cons] at h
        rw [List.cons_append, decodeListLoop_succ_cons]
        by_cases h1 : b = 101
        · rw [if_pos h1] at h ⊢
          injection h with e1 e2
          rw [e1, e2]
        · rw [if_neg h1] at h ⊢
          cases hs : decodeNext fuel (b :: bs) with
          | ok item r =>
            rw [hs] at h
            have := ihN _ _ _ hs
            rw [List.cons_append] at this
            rw [this]
            simp only at h ⊢
            exact ihL _ _ _ _ h
          | error e => rw [hs] at h; simp at h
          | fault => rw [hs] at h; simp at h
          | outOfFuel => rw [hs] at h; simp at h
    · intro input acc d rest h
      cases input with
      | nil => simp [decodeDictLoop] at h
      | cons b bs =>
        rw [decodeDictLoop_succ_cons] at h
        rw [List.cons_append, decodeDictLoop_succ_cons]
        by_cases h1 : b = 101
        · rw [if_pos h1] at h ⊢
          injection h with e1 e2
          rw [e1, e2]
        · rw [if_neg h1] at h ⊢
          cases hs : decodeString (b :: bs) with
          | ok key r =>
            rw [hs] at h
            have := decodeString_append _ t _ _ hs
            rw [List.cons_append] at this
            rw [this]
            simp only at h ⊢
            cases hv : decodeNext fuel r with
            | ok value r2 =>
              rw [hv] at h
              rw [ihN _ _ _ hv]
              simp only at h ⊢
              exact ihD _ _ _ _ h
            | error e => rw [hv] at h; simp at h
            | fault => rw [hv] at h; simp at h
            | outOfFuel => rw [hv] at h; simp at h
          | error e => rw [hs] at h; simp at h
          | fault => rw [hs] at h; simp at h
          | outOfFuel => rw [hs] at h; simp at h

end Bencode

namespace Bencode

theorem decode_length_aux : ∀ fuel,
    (∀ input v rest, decodeNext fuel input = .ok v rest → rest.length < input.length) ∧
    (∀ input acc l rest, decodeListLoop fuel input acc = .ok l rest →
        rest.length < input.length) ∧
    (∀ input acc d rest, decodeDictLoop fuel input acc = .ok d rest →
        rest.length < input.length) := by
  intro fuel
  induction fuel with
  | zero =>
    refine ⟨?_, ?_, ?_⟩
    · intro input v rest h; simp [decodeNext] at h
    · intro input acc l rest h; simp [decodeListLoop] at h
    · intro input acc d rest h; simp [decodeDictLoop] at h
  | succ fuel ih =>
    obtain ⟨ihN, ihL, ihD⟩ := ih
    refine ⟨?_, ?_, ?_⟩
    · intro input v rest h
      cases input with
      | nil => simp [decodeNext] at h
      | cons b bs =>
        rw [decodeNext_succ_cons] at h
        by_cases h1 : 48 ≤ b ∧ b ≤ 57
        · rw [if_pos h1] at h
          cases hs : decodeString (b :: bs) with
          | ok s r =>
            rw [hs] at h
            have := decodeString_length _ _ _ hs
            injection h with e1 e2
            rw [← e2]
            exact this
          | error e => rw [hs] at h; simp at h
          | fault => rw [hs] at h; simp at h
          | outOfFuel => rw [hs] at h; simp at h
        · rw [if_neg h1] at h
          by_cases h2 : b = 105
          · rw [if_pos h2] at h
            cases hs : decodeInt (b :: bs) with
            | ok s r =>
              rw [hs] at h
              have := decodeInt_length _ _ _ hs
              injection h with e1 e2
              rw [← e2]
              exact this
            | error e => rw [hs] at h; simp at h
            | fault => rw [hs] at h; simp at h
            | outOfFuel => rw [hs] at h; simp at h
          · rw [if_neg h2] at h
            by_cases h3 : b = 108
            · rw [if_pos h3] at h
              cases hs : decodeListLoop fuel bs [] with
              | ok s r =>
                rw [hs] at h
                have := ihL _ _ _ _ hs
                injection h with e1 e2
                rw [← e2, List.length_cons]
                omega
              | error e => rw [hs] at h; simp at h
              | fault => rw [hs] at h; simp at h
              | outOfFuel => rw [hs] at h; simp at h
            · rw [if_neg h3] at h
              by_cases h4 : b = 100
              · rw [if_pos h4] at h
                cases hs : decodeDictLoop fuel bs [] with
                | ok s r =>
                  rw [hs] at h
                  have := ihD _ _ _ _ hs
                  injection h with e1 e2
                  rw [← e2, List.length_cons]
                  omega
                | error e => rw [hs] at h; simp at h
                | fault => rw [hs] at h; simp at h
                | outOfFuel => rw [hs] at h; simp at h
              · rw [if_neg h4] at h
                simp at h
    · intro input acc l rest h
      cases input with
      | nil => simp [decodeListLoop] at h
      | cons b bs =>
        rw [decodeListLoop_succ_cons] at h
        by_cases h1 : b = 101
        · rw [if_pos h1] at h
          injection h with e1 e2
          rw [← e2]
          simp
        · rw [if_neg h1] at h
          cases hs : decodeNext fuel (b :: bs) with
          | ok item r =>
            rw [hs] at h
            have h5 := ihN _ _ _ hs
            have h6 := ihL _ _ _ _ h
            omega
          | error e => rw [hs] at h; simp at h
          | fault => rw [hs] at h; simp at h
          | outOfFuel => rw [hs] at h; simp at h
    · intro input acc d rest h
      cases input with
      | nil => simp [decodeDictLoop] at h
      | cons b bs =>
        rw [decodeDictLoop_succ_cons] at h
        by_cases h1 : b = 101
        · rw [if_pos h1] at h
          injection h with e1 e2
          rw [← e2]
          simp
        · rw [if_neg h1] at h
          cases hs : decodeString (b :: bs) with
          | ok key r =>
            rw [hs] at h
            simp only at h
            have h5 := decodeString_length _ _ _ hs
            cases hv : decodeNext fuel r with
            | ok value r2 =>
              rw [hv] at h
              have h6 := ihN _ _ _ hv
              have h7 := ihD _ _ _ _ h
              omega
            | error e => rw [hv] at h; simp at h
            | fault => rw [hv] at h; simp at h
            | outOfFuel => rw [hv] at h; simp at h
          | error e => rw [hs] at h; simp at h
          | fault => rw [hs] at h; simp at h
          | outOfFuel => rw [hs] at h; simp at h

theorem decode_fuel_succ_aux : ∀ fuel,
    (∀ input, decodeNext fuel input ≠ .outOfFuel →
        decodeNext (fuel + 1) input = decodeNext fuel input) ∧
    (∀ input acc, decodeListLoop fuel input acc ≠ .outOfFuel →
        decodeListLoop (fuel + 1) input acc = decodeListLoop fuel input acc) ∧
    (∀ input acc, decodeDictLoop fuel input acc ≠ .outOfFuel →
        decodeDictLoop (fuel + 1) input acc = decodeDictLoop fuel input acc) := by
  intro fuel
  induction fuel with
  | zero =>
    refine ⟨?_, ?_, ?_⟩
    · intro input h; simp [decodeNext] at h
    · intro input acc h; simp [decodeListLoop] at h
    · intro input acc h; simp [decodeDictLoop] at h
  | succ fuel ih =>
    obtain ⟨ihN, ihL, ihD⟩ := ih
    refine ⟨?_, ?_, ?_⟩
    · intro input h
      cases input with
      | nil => simp [decodeNext]
      | cons b bs =>
        rw [decodeNext_succ_cons] at h
        rw [decodeNext_succ_cons, decodeNext_succ_cons]
        by_cases h1 : 48 ≤ b ∧ b ≤ 57
        · rw [if_pos h1, if_pos h1]
        · rw [if_neg h1] at h
          rw [if_neg h1, if_neg h1]
          by_cases h2 : b = 105
          · rw [if_pos h2, if_pos h2]
          · rw [if_neg h2] at h
            rw [if_neg h2, if_neg h2]
            by_cases h3 : b = 108
            · rw [if_pos h3] at h
              rw [if_pos h3, if_pos h3]
              have : decodeListLoop fuel bs [] ≠ .outOfFuel := by
                intro e; rw [e] at h; exact h rfl
              rw [ihL _ _ this]
            · rw [if_neg h3] at h
              rw [if_neg h3, if_neg h3]
              by_cases h4 : b = 100
              · rw [if_pos h4] at h
                rw [if_pos h4, if_pos h4]
                have : decodeDictLoop fuel bs [] ≠ .outOfFuel := by
                  intro e; rw [e] at h; exact h rfl
                rw [ihD _ _ this]
              · rw [if_neg h4, if_neg h4]
    · intro input acc h
      cases input with
      | nil => simp [decodeListLoop]
      | cons b bs =>
        rw [decodeListLoop_succ_cons] at h
        rw [decodeListLoop_succ_cons, decodeListLoop_succ_cons]
        by_cases h1 : b = 101
        · rw [if_pos h1, if_pos h1]
        · rw [if_neg h1] at h
          rw [if_neg h1, if_neg h1]
          have hN : decodeNext fuel (b :: bs) ≠ .outOfFuel := by
            intro e; rw [e] at h; exact h rfl
          rw [ihN _ hN]
          cases hs : decodeNext fuel (b :: bs) with
          | ok item r =>
            rw [hs] at h
            simp only at h ⊢
            exact ihL _ _ h
          | error e => rfl
          | fault => rfl
          | outOfFuel => rfl
    · intro input acc h
      cases input with
      | nil => simp [decodeDictLoop]
      | cons b bs =>
        rw [decodeDictLoop_succ_cons] at h
        rw [decodeDictLoop_succ_cons, decodeDictLoop_succ_cons]
        by_cases h1 : b = 101
        · rw [if_pos h1, if_pos h1]
        · rw [if_neg h1] at h
          rw [if_neg h1, if_neg h1]
          cases hs : decodeString (b :: bs) with
          | ok key r =>
            rw [hs] at h
            simp only at h ⊢
            have hN : decodeNext fuel r ≠ .outOfFuel := by
              intro e; rw [e] at h; exact h rfl
            rw [ihN _ hN]
            cases hv : decodeNext fuel r with
            | ok value r2 =>
              rw [hv] at h
              simp only at h ⊢
              exact ihD _ _ h
            | error e => rfl
            | fault => rfl
            | outOfFuel => rfl
          | error e => rfl
          | fault => rfl
          | outOfFuel => rfl

theorem decodeNext_fuel_mono (fuel : Nat) (input : List Nat)
    (h : decodeNext fuel input ≠ .outOfFuel) :
    ∀ k, decodeNext (fuel + k) input = decodeNext fuel input := by
  intro k
  induction k with
  | zero => rfl
  | succ k ih =>
    have : decodeNext (fuel + k) input ≠ .outOfFuel := by rw [ih]; exact h
    rw [← Nat.add_assoc, (decode_fuel_succ_aux (fuel + k)).1 input this, ih]

theorem decode_enough_fuel_aux : ∀ fuel,
    (∀ input, 2 * input.length + 1 ≤ fuel → decodeNext fuel input ≠ .outOfFuel) ∧
    (∀ input acc, 2 * input.length + 2 ≤ fuel → decodeListLoop fuel input acc ≠ .outOfFuel) ∧
    (∀ input acc, 2 * input.length + 2 ≤ fuel → decodeDictLoop fuel input acc ≠ .outOfFuel) := by
  intro fuel
  induction fuel with
  | zero =>
    refine ⟨?_, ?_, ?_⟩
    · intro input h; omega
    · intro input acc h; omega
    · intro input acc h; omega
  | succ fuel ih =>
    obtain ⟨ihN, ihL, ihD⟩ := ih
    refine ⟨?_, ?_, ?_⟩
    · intro input hf
      cases input with
      | nil => simp [decodeNext]
      | cons b bs =>
        rw [List.length_cons] at hf
        rw [decodeNext_succ_cons]
        by_cases h1 : 48 ≤ b ∧ b ≤ 57
        · rw [if_pos h1]
          have := decodeString_ne_outOfFuel (b :: bs)
          cases hs : decodeString (b :: bs) with
          | ok s r => simp
          | error e => simp
          | fault => simp
          | outOfFuel => exact absurd hs this
        · rw [if_neg h1]
          by_cases h2 : b = 105
          · rw [if_pos h2]
            have := decodeInt_ne_outOfFuel (b :: bs)
            cases hs : decodeInt (b :: bs) with
            | ok s r => simp
            | error e => simp
            | fault => simp
            | outOfFuel => exact absurd hs this
          · rw [if_neg h2]
            by_cases h3 : b = 108
            · rw [if_pos h3]
              have := ihL bs [] (by omega)
              cases hs : decodeListLoop fuel bs [] with
              | ok s r => simp
              | error e => simp
              | fault => simp
              | outOfFuel => exact absurd hs this
            · rw [if_neg h3]
              by_cases h4 : b = 100
              · rw [if_pos h4]
                have := ihD bs [] (by omega)
                cases hs : decodeDictLoop fuel bs [] with
                | ok s r => simp
                | error e => simp
                | fault => simp
                | outOfFuel => exact absurd hs this
              · rw [if_neg h4]
                simp
    · intro input acc hf
      cases input with
      | nil => simp [decodeListLoop]
      | cons b bs =>
        rw [List.length_cons] at hf
        rw [decodeListLoop_succ_cons]
        by_cases h1 : b = 101
        · rw [if_pos h1]; simp
        · rw [if_neg h1]
          have hN := ihN (b :: bs) (by rw [List.length_cons]; omega)
          cases hs : decodeNext fuel (b :: bs) with
          | ok item r =>
            have hl := (decode_length_aux fuel).1 _ _ _ hs
            rw [List.length_cons] at hl
            exact ihL r _ (by omega)
          | error e => simp
          | fault => simp
          | outOfFuel => exact absurd hs hN
    · intro input acc hf
      cases input with
      | nil => simp [decodeDictLoop]
      | cons b bs =>
        rw [List.length_cons] at hf
        rw [decodeDictLoop_succ_cons]
        by_cases h1 : b = 101
        · rw [if_pos h1]; simp
        · rw [if_neg h1]
          cases hs : decodeString (b :: bs) with
          | ok key r =>
            have hl := decodeString_length _ _ _ hs
            rw [List.length_cons] at hl
            have hN := ihN r (by omega)
            simp only
            cases hv : decodeNext fuel r with
            | ok value r2 =>
              have hl2 := (decode_length_aux fuel).1 _ _ _ hv
              exact ihD r2 _ (by omega)
            | error e => simp
            | fault => simp
            | outOfFuel => exact absurd hv hN
          | error e => simp
          | fault => simp
          | outOfFuel => exact absurd hs (decodeString_ne_outOfFuel _)

/-- The budget of `Decode` is never exhausted. -/
theorem Decode_ne_outOfFuel (input : List Nat) : Decode input ≠ .outOfFuel :=
  (decode_enough_fuel_aux _).1 input (by omega)

/-- Any run of `decodeNext` that ends within its budget gives the result of `Decode`. -/
theorem Decode_eq_of_decodeNext (fuel : Nat) (input : List Nat)
    (h : decodeNext fuel input ≠ .outOfFuel) : Decode input = decodeNext fuel input := by
  have h1 := decodeNext_fuel_mono fuel input h (2 * input.length + 2)
  have h2 := decodeNext_fuel_mono (2 * input.length + 2) input (Decode_ne_outOfFuel input) fuel
  unfold Decode
  rw [← h2, Nat.add_comm, h1]

end Bencode

namespace Bencode

/-! ## Byte order and maps -/

theorem strLess_iff_lt (a b : List Nat) : strLess a b = true ↔ a < b := by
  induction a generalizing b with
  | nil =>
    cases b with
    | nil => simp [strLess]
    | cons b bs => simp only [strLess, true_iff]; exact List.Lex.nil
  | cons a as ih =>
    cases b with
    | nil =>
      simp only [strLess]
      constructor
      · intro h; cases h
      · intro h; exact absurd h (List.Lex.not_nil_right _ _)
    | cons b bs =>
      rw [strLess]
      by_cases h1 : a < b
      · rw [if_pos h1]
        exact ⟨fun _ => List.Lex.rel h1, fun _ => rfl⟩
      · rw [if_neg h1]
        by_cases h2 : b < a
        · rw [if_pos h2]
          constructor
          · intro h; cases h
          · intro h
            cases h with
            | cons h => omega
            | rel h => omega
        · rw [if_neg h2]
          have e : a = b := by omega
          subst e
          rw [ih bs]
          exact (List.Lex.cons_iff (r := (· < ·))).symm

theorem keyLE_iff (a b : List Nat) : strLess b a = false ↔ a ≤ b := by
  rw [← not_lt, ← strLess_iff_lt]
  simp

theorem sortStrings_sorted_le (keys : List (List Nat)) :
    (sortStrings keys).Sorted (· ≤ ·) := by
  have hT : IsTotal (List Nat) (fun a b => strLess b a = false) :=
    ⟨fun a b => by simp only [keyLE_iff]; exact le_total a b⟩
  have hR : IsTrans (List Nat) (fun a b => strLess b a = false) :=
    ⟨fun a b c => by simp only [keyLE_iff]; exact le_trans⟩
  have := @List.sorted_insertionSort _ (fun a b => strLess b a = false) _ hT hR keys
  exact List.Pairwise.imp (fun {a b} h => (keyLE_iff a b).mp h) this

theorem sortStrings_perm (keys : List (List Nat)) : (sortStrings keys).Perm keys :=
  List.perm_insertionSort _ keys

theorem sortStrings_sorted_lt (keys : List (List Nat)) (hn : keys.Nodup) :
    (sortStrings keys).Sorted (· < ·) := by
  have h1 := sortStrings_sorted_le keys
  have h2 : (sortStrings keys).Nodup := (sortStrings_perm keys).nodup_iff.mpr hn
  exact (List.Pairwise.and h1 h2).imp (fun {a b} h => lt_of_le_of_ne h.1 h.2)

theorem sortStrings_of_sorted (keys : List (List Nat)) (h : keys.Sorted (· < ·)) :
    sortStrings keys = keys := by
  apply List.Sorted.insertionSort_eq
  exact List.Pairwise.imp (fun {a b} hab => (keyLE_iff a b).mpr (le_of_lt hab)) h

theorem sortStrings_congr (k1 k2 : List (List Nat)) (h : k1.Perm k2) :
    sortStrings k1 = sortStrings k2 :=
  List.eq_of_perm_of_sorted (((sortStrings_perm k1).trans h).trans (sortStrings_perm k2).symm)
    (sortStrings_sorted_le k1) (sortStrings_sorted_le k2)

theorem mapLookup_eq_none {α : Type} (d : List (List Nat × α)) (k : List Nat)
    (h : k ∉ d.map Prod.fst) : mapLookup d k = none := by
  induction d with
  | nil => rfl
  | cons p d ih =>
    obtain ⟨k1, v1⟩ := p
    simp only [List.map_cons, List.mem_cons, not_or] at h
    rw [mapLookup, if_neg (fun e => h.1 e.symm)]
    exact ih h.2

theorem mapLookup_isSome {α : Type} (d : List (List Nat × α)) (k : List Nat)
    (h : k ∈ d.map Prod.fst) : ∃ v, mapLookup d k = some v := by
  induction d with
  | nil => simp at h
  | cons p d ih =>
    obtain ⟨k1, v1⟩ := p
    rw [mapLookup]
    by_cases e : k1 = k
    · rw [if_pos e]; exact ⟨_, rfl⟩
    · rw [if_neg e]
      simp only [List.map_cons, List.mem_cons] at h
      rcases h with h | h
      · exact absurd h.symm e
      · exact ih h

theorem mapLookup_perm {α : Type} (d1 d2 : List (List Nat × α)) (k : List Nat)
    (hp : d1.Perm d2) (hn : (d1.map Prod.fst).Nodup) : mapLookup d1 k = mapLookup d2 k := by
  induction hp with
  | nil => rfl
  | cons p _ ih =>
    obtain ⟨k1, v1⟩ := p
    simp only [List.map_cons, List.nodup_cons] at hn
    simp only [mapLookup, ih hn.2]
  | swap p q l =>
    obtain ⟨k1, v1⟩ := p
    obtain ⟨k2, v2⟩ := q
    simp only [List.map_cons, List.nodup_cons, List.mem_cons, not_or] at hn
    simp only [mapLookup]
    by_cases e1 : k1 = k
    · by_cases e2 : k2 = k
      · exact absurd (e2.trans e1.symm) hn.1.1
      · simp [e1, e2]
    · simp [e1]
  | trans h1 _ ih1 ih2 =>
    rw [ih1 hn, ih2 ((h1.map Prod.fst).nodup_iff.mp hn)]

theorem mapInsert_of_not_mem {α : Type} (d : List (List Nat × α)) (k : List Nat) (v : α)
    (h : k ∉ d.map Prod.fst) : mapInsert d k v = d ++ [(k, v)] := by
  induction d with
  | nil => rfl
  | cons p d ih =>
    obtain ⟨k1, v1⟩ := p
    simp only [List.map_cons, List.mem_cons, not_or] at h
    rw [mapInsert, if_neg (fun e => h.1 e.symm), ih h.2]
    rfl

theorem mapLookup_encodeEntries (d : List (List Nat × Value)) (k : List Nat) :
    mapLookup (encodeEntries d) k = (mapLookup d k).map encodeValue := by
  induction d with
  | nil => simp [encodeEntries, mapLookup]
  | cons p d ih =>
    obtain ⟨k1, v1⟩ := p
    rw [encodeEntries, mapLookup, mapLookup, ih]
    by_cases e : k1 = k <;> simp [e]

theorem pairsOf_keys (d : List (List Nat × Value)) (hn : (d.map Prod.fst).Nodup) :
    pairsOf d (d.map Prod.fst) = d := by
  induction d with
  | nil => rfl
  | cons p d ih =>
    obtain ⟨k1, v1⟩ := p
    simp only [List.map_cons, List.nodup_cons] at hn
    have hrest : pairsOf ((k1, v1) :: d) (d.map Prod.fst) = pairsOf d (d.map Prod.fst) := by
      unfold pairsOf
      apply List.filterMap_congr
      intro k hk
      have : k1 ≠ k := fun e => hn.1 (e ▸ hk)
      rw [mapLookup, if_neg this]
    show pairsOf ((k1, v1) :: d) (k1 :: d.map Prod.fst) = (k1, v1) :: d
    rw [pairsOf, List.filterMap_cons]
    simp only [mapLookup, if_true, Option.map_some']
    show (k1, v1) :: pairsOf ((k1, v1) :: d) (d.map Prod.fst) = _
    rw [hrest, ih hn.2]

theorem pairsOf_map_fst (d : List (List Nat × Value)) (ks : List (List Nat))
    (h : ∀ k ∈ ks, k ∈ d.map Prod.fst) : (pairsOf d ks).map Prod.fst = ks := by
  induction ks with
  | nil => rfl
  | cons k ks ih =>
    obtain ⟨v, hv⟩ := mapLookup_isSome d k (h k (List.mem_cons_self _ _))
    rw [pairsOf, List.filterMap_cons, hv]
    simp only [Option.map_some', List.map_cons]
    have := ih (fun k hk => h k (List.mem_cons_of_mem _ hk))
    unfold pairsOf at this
    rw [this]

theorem encodeDictLoop_eq_emitPairs (d : List (List Nat × Value)) (ks : List (List Nat))
    (h : ∀ k ∈ ks, k ∈ d.map Prod.fst) :
    encodeDictLoop (mapLookup (encodeEntries d)) ks = emitPairs (pairsOf d ks) := by
  induction ks with
  | nil => rfl
  | cons k ks ih =>
    obtain ⟨v, hv⟩ := mapLookup_isSome d k (h k (List.mem_cons_self _ _))
    have ih1 := ih (fun k hk => h k (List.mem_cons_of_mem _ hk))
    have hp : pairsOf d (k :: ks) = (k, v) :: pairsOf d ks := by
      rw [pairsOf, List.filterMap_cons, hv]
      rfl
    rw [hp, encodeDictLoop, emitPairs, mapLookup_encodeEntries, hv, ih1]
    simp only [Option.map_some']
    cases encodeValue v <;> rfl

/-- The dictionary case of `encodeValue` in the shape of the source: the keys
are sorted and every `d[key]` is encoded in that order. -/
theorem encodeValue_dict (d : List (List Nat × Value)) :
    encodeValue (.dict d) = emitDict (pairsOf d (sortStrings (d.map Prod.fst))) := by
  rw [encodeValue, encodeDictLoop_eq_emitPairs d _
    (fun k hk => (sortStrings_perm _).mem_iff.mp hk)]
  rfl

end Bencode

namespace Bencode

/-! ## Claims about the codec -/

/-- C2. `Encode` writes the pairs of a dictionary with the keys in strictly
ascending byte-wise lexicographic order: its output is the text of a
rearrangement `ps` of the pairs whose keys are strictly ascending. Hence a
dictionary `d2` holding the same pairs in another order encodes to the same
bytes and has the same info-hash. -/
theorem encodeDict_canonical_order (sha1 : List Nat → List Nat)
    (d d2 : List (List Nat × Value)) (hn : (d.map Prod.fst).Nodup) (hp : d2.Perm d) :
    (∃ ps : List (List Nat × Value), ps.Perm d ∧ (ps.map Prod.fst).Sorted (· < ·) ∧
        Encode (.dict d) = emitDict ps) ∧
      Encode (.dict d2) = Encode (.dict d) ∧
      Torrent.calculateInfoHash sha1 d2 = Torrent.calculateInfoHash sha1 d := by
  have hmem : ∀ k ∈ sortStrings (d.map Prod.fst), k ∈ d.map Prod.fst :=
    fun k hk => (sortStrings_perm _).mem_iff.mp hk
  have henc : Encode (.dict d2) = Encode (.dict d) := by
    unfold Encode
    rw [encodeValue_dict, encodeValue_dict, sortStrings_congr _ _ (hp.map Prod.fst)]
    congr 1
    unfold pairsOf
    apply List.filterMap_congr
    intro k _
    rw [mapLookup_perm d2 d k hp ((hp.map Prod.fst).nodup_iff.mpr hn)]
  refine ⟨⟨pairsOf d (sortStrings (d.map Prod.fst)), ?_, ?_, encodeValue_dict d⟩, henc, ?_⟩
  · have h1 : (pairsOf d (sortStrings (d.map Prod.fst))).Perm (pairsOf d (d.map Prod.fst)) :=
      List.Perm.filterMap _ (sortStrings_perm _)
    rw [pairsOf_keys d hn] at h1
    exact h1
  · rw [pairsOf_map_fst d _ hmem]
    exact sortStrings_sorted_lt _ hn
  · unfold Torrent.calculateInfoHash
    rw [henc]

theorem encodeDict_canonical_order_witness :
    (∃ ps : List (List Nat × Value),
        ps.Perm [(ascii "b", Value.int 1), (ascii "a", Value.int 2)] ∧
        (ps.map Prod.fst).Sorted (· < ·) ∧
        Encode (.dict [(ascii "b", Value.int 1), (ascii "a", Value.int 2)]) = emitDict ps) ∧
      Encode (.dict [(ascii "a", Value.int 2), (ascii "b", Value.int 1)]) =
        Encode (.dict [(ascii "b", Value.int 1), (ascii "a", Value.int 2)]) ∧
      Torrent.calculateInfoHash id [(ascii "a", Value.int 2), (ascii "b", Value.int 1)] =
        Torrent.calculateInfoHash id [(ascii "b", Value.int 1), (ascii "a", Value.int 2)] :=
  encodeDict_canonical_order id [(ascii "b", Value.int 1), (ascii "a", Value.int 2)]
    [(ascii "a", Value.int 2), (ascii "b", Value.int 1)] (by decide) (List.Perm.swap _ _ _)

/-- C3. An integer literal `i<s>e` (so `s` holds no `e`) whose numeral `s` has
more than one byte and starts with `0`, or starts with `-0`, is rejected with
`ErrIntegerFormat`, whatever follows the literal; `i03e` and `i-0e` are such
literals, while `i0e` decodes to `0` and `i-3e` to `-3`. -/
theorem decodeInt_format_rejection (s rest : List Nat) (he : 101 ∉ s)
    (h : (1 < s.length ∧ s.head? = some 48) ∨ [45, 48] <+: s) :
    Decode (105 :: s ++ 101 :: rest) = .error .ErrIntegerFormat ∧
      Decode (ascii "i03e") = .error .ErrIntegerFormat ∧
      Decode (ascii "i-0e") = .error .ErrIntegerFormat ∧
      Decode (ascii "i0e") = .ok (.int 0) [] ∧
      Decode (ascii "i-3e") = .ok (.int (-3)) [] := by
  refine ⟨?_, rfl, rfl, rfl, rfl⟩
  have hd : decodeInt (105 :: (s ++ 101 :: rest)) = .error .ErrIntegerFormat := by
    unfold decodeInt
    simp only [readUntil_append s rest 101 he]
    rcases h with h | h
    · rw [if_pos (by exact ⟨h.1, h.2⟩)]
    · obtain ⟨t, ht⟩ := h
      have h2 : s.length > 1 ∧ s.take 2 = [45, 48] := by
        subst ht
        simp
      rw [if_pos h2]
      split <;> rfl
  have h1 : decodeNext 1 (105 :: (s ++ 101 :: rest)) = .error .ErrIntegerFormat := by
    rw [decodeNext_succ_cons, if_neg (by omega), if_pos rfl, hd]
  rw [List.cons_append, Decode_eq_of_decodeNext 1 _ (by rw [h1]; simp), h1]

theorem decodeInt_format_rejection_witness :
    Decode (105 :: ascii "007" ++ 101 :: ascii "4:spam") = .error .ErrIntegerFormat ∧
      Decode (ascii "i03e") = .error .ErrIntegerFormat ∧
      Decode (ascii "i-0e") = .error .ErrIntegerFormat ∧
      Decode (ascii "i0e") = .ok (.int 0) [] ∧
      Decode (ascii "i-3e") = .ok (.int (-3)) [] :=
  decodeInt_format_rejection (ascii "007") (ascii "4:spam") (by decide)
    (Or.inl (by decide))

/-- C4. `decodeDict` reads a key with `decodeString` without looking at its first
byte, so a signed length prefix is taken as a key length: `d-1:e` panics in
`make([]byte, -1)`, `d+1:ai0ee` decodes to the dictionary with key `a`, and
`d-0:i1ee` to the dictionary with the empty key. -/
theorem decodeDict_signed_key_length :
    Decode (ascii "d-1:e") = .fault ∧
      Decode (ascii "d+1:ai0ee") = .ok (.dict [(ascii "a", .int 0)]) [] ∧
      Decode (ascii "d-0:i1ee") = .ok (.dict [([], .int 1)]) [] :=
  ⟨rfl, rfl, rfl⟩

/-- C5. Bytes after a top-level value are ignored: when `Decode b` returns `v`,
so does `Decode (b ++ s)` for every `s`. -/
theorem Decode_trailing_bytes (b s : List Nat) (v : Value) (rest : List Nat)
    (h : Decode b = .ok v rest) : Decode (b ++ s) = .ok v (rest ++ s) := by
  have h1 := (decode_append_aux s _).1 b v rest h
  rw [Decode_eq_of_decodeNext _ _ (by rw [h1]; simp), h1]

theorem Decode_trailing_bytes_witness :
    Decode (ascii "l4:spami7ee") = .ok (.list [.str (ascii "spam"), .int 7]) [] ∧
      Decode (ascii "l4:spami7ee" ++ ascii "xyz") =
        .ok (.list [.str (ascii "spam"), .int 7]) ([] ++ ascii "xyz") :=
  ⟨rfl, Decode_trailing_bytes (ascii "l4:spami7ee") (ascii "xyz") _ [] rfl⟩

end Bencode

namespace Bencode

/-! ## Canonical text is decoded and written back unchanged -/

theorem MinimalDecimal.head_digit {ds : List Nat} (hm : MinimalDecimal ds) :
    ∃ c cs, ds = c :: cs ∧ 48 ≤ c ∧ c ≤ 57 := by
  obtain ⟨hne, hd, _⟩ := hm
  cases ds with
  | nil => exact absurd rfl hne
  | cons c cs => exact ⟨c, cs, rfl, hd c (List.mem_cons_self _ _)⟩

theorem MinimalDecimal.not_mem {ds : List Nat} (hm : MinimalDecimal ds) (x : Nat)
    (hx : 57 < x) : x ∉ ds := fun h => by
  have := (hm.2.1 x h).2
  omega

theorem ParseInt_minimal (ds : List Nat) (hm : MinimalDecimal ds)
    (h : decimalValue ds < 2 ^ 63) : ParseInt ds = .ok (decimalValue ds : Int) := by
  obtain ⟨c, cs, rfl, hc⟩ := hm.head_digit
  have hu := ParseUint_minimal _ hm (lt_trans h (by norm_num))
  have h1 : ¬ (c = 43 ∨ c = 45) := by omega
  have h2 : ¬ c = 45 := by omega
  have h3 : ¬ 9223372036854775808 ≤ decimalValue (c :: cs) := by
    norm_num at h
    omega
  have h4 : ¬ c = 43 := by omega
  simp [ParseInt, h4, hu, h2, h3]

theorem ParseInt_neg_minimal (ds : List Nat) (hm : MinimalDecimal ds)
    (h : decimalValue ds ≤ 2 ^ 63) : ParseInt (45 :: ds) = .ok (-(decimalValue ds : Int)) := by
  have hu := ParseUint_minimal _ hm (lt_of_le_of_lt h (by norm_num))
  simp [ParseInt, hu]
  norm_num at h
  exact h

theorem decodeString_canonical (ds s rest : List Nat) (hm : MinimalDecimal ds)
    (hl : decimalValue ds = s.length) (hlt : s.length < 2 ^ 63) :
    decodeString (ds ++ 58 :: (s ++ rest)) = .ok s rest := by
  unfold decodeString
  rw [readUntil_append ds _ 58 (hm.not_mem 58 (by omega))]
  simp only [Atoi, ParseInt_minimal ds hm (by omega)]
  rw [if_neg (by omega), hl]
  simpa using ReadFull_exact s rest

theorem decodeInt_canonical (ds rest : List Nat) (hm : MinimalDecimal ds)
    (h : decimalValue ds < 2 ^ 63) :
    decodeInt (105 :: (ds ++ 101 :: rest)) = .ok (decimalValue ds : Int) rest := by
  unfold decodeInt
  simp only [readUntil_append ds rest 101 (hm.not_mem 101 (by omega))]
  have h1 : ¬ (ds.length > 1 ∧ ds.head? = some 48) := by
    intro ⟨hlen, hh⟩
    have := hm.2.2 hh
    rw [this] at hlen
    simp at hlen
  have h2 : ¬ (ds.length > 1 ∧ ds.take 2 = [45, 48]) := by
    obtain ⟨c, cs, rfl, hc⟩ := hm.head_digit
    intro ⟨_, ht⟩
    cases cs with
    | nil => simp at ht
    | cons c2 cs2 =>
      simp at ht
      omega
  rw [if_neg h1, if_neg h2, ParseInt_minimal ds hm h]

theorem decodeInt_canonical_neg (ds rest : List Nat) (hm : MinimalDecimal ds) (hz : ds ≠ [48])
    (h : decimalValue ds ≤ 2 ^ 63) :
    decodeInt (105 :: (45 :: ds ++ 101 :: rest)) = .ok (-(decimalValue ds : Int)) rest := by
  unfold decodeInt
  have hnm : (101 : Nat) ∉ 45 :: ds := by
    intro hmem
    rcases List.mem_cons.mp hmem with e | e
    · omega
    · exact hm.not_mem 101 (by omega) e
  simp only [readUntil_append (45 :: ds) rest 101 hnm]
  obtain ⟨c, cs, rfl, hc⟩ := hm.head_digit
  have h1 : ¬ ((45 :: c :: cs).length > 1 ∧ (45 :: c :: cs).head? = some 48) := by
    simp
  have h2 : ¬ ((45 :: c :: cs).length > 1 ∧ (45 :: c :: cs).take 2 = [45, 48]) := by
    intro ⟨_, ht⟩
    simp at ht
    subst ht
    exact hz (hm.2.2 rfl)
  rw [if_neg h1, if_neg h2, ParseInt_neg_minimal _ hm h]

theorem encodeInt_canonical (ds : List Nat) (hm : MinimalDecimal ds) :
    encodeInt (decimalValue ds : Int) = 105 :: ds ++ [101] := by
  unfold encodeInt FormatInt
  rw [if_neg (by omega)]
  simp [FormatUint_decimalValue ds hm]

theorem encodeInt_canonical_neg (ds : List Nat) (hm : MinimalDecimal ds) (hz : ds ≠ [48]) :
    encodeInt (-(decimalValue ds : Int)) = 105 :: 45 :: ds ++ [101] := by
  have hpos : 0 < decimalValue ds :=
    decimalValue_pos ds hm.1 hm.2.1 (fun h => hz (hm.2.2 h))
  unfold encodeInt FormatInt
  rw [if_pos (by omega)]
  simp [FormatUint_decimalValue ds hm]

theorem decodeNext_mono (f g : Nat) (input : List Nat) (v : Value) (rest : List Nat)
    (h : decodeNext f input = .ok v rest) (hfg : f ≤ g) : decodeNext g input = .ok v rest := by
  obtain ⟨k, rfl⟩ := Nat.exists_eq_add_of_le hfg
  rw [decodeNext_fuel_mono f input (by rw [h]; simp) k, h]

theorem decodeListLoop_mono (f g : Nat) (input : List Nat) (acc l : List Value)
    (rest : List Nat) (h : decodeListLoop f input acc = .ok l rest) (hfg : f ≤ g) :
    decodeListLoop g input acc = .ok l rest := by
  obtain ⟨k, rfl⟩ := Nat.exists_eq_add_of_le hfg
  induction k with
  | zero => exact h
  | succ k ih =>
    have h1 := ih (by omega)
    rw [← Nat.add_assoc, (decode_fuel_succ_aux (f + k)).2.1 input acc (by rw [h1]; simp), h1]

theorem decodeDictLoop_mono (f g : Nat) (input : List Nat) (acc d : List (List Nat × Value))
    (rest : List Nat) (h : decodeDictLoop f input acc = .ok d rest) (hfg : f ≤ g) :
    decodeDictLoop g input acc = .ok d rest := by
  obtain ⟨k, rfl⟩ := Nat.exists_eq_add_of_le hfg
  induction k with
  | zero => exact h
  | succ k ih =>
    have h1 := ih (by omega)
    rw [← Nat.add_assoc, (decode_fuel_succ_aux (f + k)).2.2 input acc (by rw [h1]; simp), h1]

theorem decodeNext_ok_head (f : Nat) (input : List Nat) (v : Value) (rest : List Nat)
    (h : decodeNext f input = .ok v rest) : ∃ c cs, input = c :: cs ∧ c ≠ 101 := by
  cases f with
  | zero => simp [decodeNext] at h
  | succ f =>
    cases input with
    | nil => simp [decodeNext] at h
    | cons c cs =>
      refine ⟨c, cs, rfl, ?_⟩
      intro e
      subst e
      rw [decodeNext_succ_cons] at h
      simp at h

theorem length_le_flatten {α : Type} (b : List α) (items : List (List α)) (h : b ∈ items) :
    b.length ≤ items.flatten.length := by
  induction items with
  | nil => simp at h
  | cons x xs ih =>
    rw [List.flatten_cons, List.length_append]
    rcases List.mem_cons.mp h with e | e
    · subst e; omega
    · have := ih e; omega

theorem decodeListLoop_items (items : List (List Nat))
    (h : ∀ b ∈ items, ∃ v fuel, decodeNext fuel b = .ok v [] ∧ encodeValue v = .ok b) :
    ∃ vs fuel, (∀ acc, decodeListLoop fuel (items.flatten ++ [101]) acc = .ok (acc ++ vs) []) ∧
      encodeListLoop vs = .ok (items.flatten ++ [101]) := by
  induction items with
  | nil =>
    refine ⟨[], 1, ?_, rfl⟩
    intro acc
    simp [decodeListLoop]
  | cons b items ih =>
    obtain ⟨v, f1, hdec, henc⟩ := h b (List.mem_cons_self _ _)
    obtain ⟨vs, f2, hloop, hencs⟩ := ih (fun b hb => h b (List.mem_cons_of_mem _ hb))
    obtain ⟨c, cs, hb, hc⟩ := decodeNext_ok_head _ _ _ _ hdec
    refine ⟨v :: vs, max f1 f2 + 1, ?_, ?_⟩
    · intro acc
      have hd1 := (decode_append_aux (items.flatten ++ [101]) f1).1 b v [] hdec
      have hd2 := decodeNext_mono f1 (max f1 f2) _ _ _ hd1 (le_max_left _ _)
      have hl2 := decodeListLoop_mono f2 (max f1 f2) _ _ _ _ (hloop (acc ++ [v]))
        (le_max_right _ _)
      rw [List.flatten_cons, List.append_assoc]
      rw [hb] at hd2 ⊢
      rw [List.cons_append] at hd2 ⊢
      rw [decodeListLoop_succ_cons, if_neg hc, hd2]
      simp only [List.nil_append]
      rw [hl2]
      simp
    · rw [encodeListLoop, henc, hencs]
      simp

theorem decodeDictLoop_entries (entries : List (List Nat × List Nat × List Nat))
    (hk : ∀ e ∈ entries, MinimalDecimal e.1 ∧ decimalValue e.1 = e.2.1.length)
    (hlen : ∀ e ∈ entries, e.2.1.length < 2 ^ 63)
    (hn : (entries.map (fun e => e.2.1)).Nodup)
    (h : ∀ e ∈ entries, ∃ v fuel, decodeNext fuel e.2.2 = .ok v [] ∧ encodeValue v = .ok e.2.2) :
    ∃ d fuel, d.map Prod.fst = entries.map (fun e => e.2.1) ∧
      (∀ acc : List (List Nat × Value),
        (∀ e ∈ entries, e.2.1 ∉ acc.map Prod.fst) →
        decodeDictLoop fuel
          ((entries.map (fun e => e.1 ++ 58 :: e.2.1 ++ e.2.2)).flatten ++ [101]) acc =
          .ok (acc ++ d) []) ∧
      emitPairs d = .ok ((entries.map (fun e => e.1 ++ 58 :: e.2.1 ++ e.2.2)).flatten ++ [101]) := by
  induction entries with
  | nil =>
    refine ⟨[], 1, rfl, ?_, rfl⟩
    intro acc _
    simp [decodeDictLoop]
  | cons e entries ih =>
    obtain ⟨ds, key, vb⟩ := e
    obtain ⟨v, f1, hdec, henc⟩ := h _ (List.mem_cons_self _ _)
    obtain ⟨hm, hl⟩ := hk _ (List.mem_cons_self _ _)
    have hkl := hlen _ (List.mem_cons_self _ _)
    simp only [List.map_cons, List.nodup_cons] at hn
    obtain ⟨d, f2, hkeys, hloop, hemit⟩ := ih
      (fun e he => hk e (List.mem_cons_of_mem _ he))
      (fun e he => hlen e (List.mem_cons_of_mem _ he)) hn.2
      (fun e he => h e (List.mem_cons_of_mem _ he))
    simp only at hdec henc hm hl hkl
    refine ⟨(key, v) :: d, max f1 f2 + 1, ?_, ?_, ?_⟩
    · simp [hkeys]
    · intro acc hacc
      obtain ⟨c, cs, hds, hc⟩ := hm.head_digit
      have hne : c ≠ 101 := by omega
      have hshape : ((List.map (fun e => e.1 ++ 58 :: e.2.1 ++ e.2.2)
            ((ds, key, vb) :: entries)).flatten ++ [101]) =
          ds ++ 58 :: (key ++ (vb ++
            ((entries.map (fun e => e.1 ++ 58 :: e.2.1 ++ e.2.2)).flatten ++ [101]))) := by
        simp
      have hstr := decodeString_canonical ds key
        (vb ++ ((entries.map (fun e => e.1 ++ 58 :: e.2.1 ++ e.2.2)).flatten ++ [101]))
        hm hl hkl
      have hd1 := (decode_append_aux
        ((entries.map (fun e => e.1 ++ 58 :: e.2.1 ++ e.2.2)).flatten ++ [101]) f1).1 vb v [] hdec
      have hd2 := decodeNext_mono f1 (max f1 f2) _ _ _ hd1 (le_max_left _ _)
      have hins : mapInsert acc key v = acc ++ [(key, v)] :=
        mapInsert_of_not_mem acc key v (hacc _ (List.mem_cons_self _ _))
      have hacc2 : ∀ e ∈ entries, e.2.1 ∉ (acc ++ [(key, v)]).map Prod.fst := by
        intro e he hmem
        simp only [List.map_append, List.map_cons, List.map_nil, List.mem_append,
          List.mem_singleton] at hmem
        rcases hmem with hmem | hmem
        · exact hacc e (List.mem_cons_of_mem _ he) hmem
        · exact hn.1 (hmem ▸ List.mem_map_of_mem (fun e => e.2.1) he)
      have hl2 := decodeDictLoop_mono f2 (max f1 f2) _ _ _ _ (hloop (acc ++ [(key, v)]) hacc2)
        (le_max_right _ _)
      rw [hshape]
      rw [hds] at hstr ⊢
      rw [List.cons_append] at hstr ⊢
      rw [decodeDictLoop_succ_cons, if_neg hne, hstr]
      simp only [List.nil_append] at hd2
      simp only [hd2, hins, hl2]
      simp
    · rw [emitPairs, henc, hemit]
      simp only [encodeString, hl.symm, FormatUint_decimalValue ds hm]
      simp

end Bencode

namespace Bencode

theorem canonical_decode_encode (b : List Nat) (hc : Canonical b) :
    b.length < 2 ^ 63 → ∃ v fuel, decodeNext fuel b = .ok v [] ∧ encodeValue v = .ok b := by
  induction hc with
  | str ds s hd hl =>
    intro hlen
    obtain ⟨c, cs, hds, hcd⟩ := hd.head_digit
    have hs : s.length < 2 ^ 63 := by
      simp only [List.length_append, List.length_cons] at hlen
      omega
    have hstr := decodeString_canonical ds s [] hd hl hs
    refine ⟨.str s, 1, ?_, ?_⟩
    · rw [List.append_nil] at hstr
      rw [hds] at hstr ⊢
      rw [List.cons_append] at hstr ⊢
      rw [decodeNext_succ_cons, if_pos hcd, hstr]
    · rw [encodeValue, encodeString, ← hl, FormatUint_decimalValue ds hd]
  | nonneg ds hd hr =>
    intro _
    refine ⟨.int (decimalValue ds), 1, ?_, ?_⟩
    · have := decodeInt_canonical ds [] hd hr
      show decodeNext 1 (105 :: (ds ++ [101])) = _
      rw [decodeNext_succ_cons, if_neg (by omega), if_pos rfl, this]
    · rw [encodeValue, encodeInt_canonical ds hd]
  | neg ds hd hz hr =>
    intro _
    refine ⟨.int (-(decimalValue ds : Int)), 1, ?_, ?_⟩
    · have := decodeInt_canonical_neg ds [] hd hz hr
      show decodeNext 1 (105 :: (45 :: ds ++ [101])) = _
      rw [decodeNext_succ_cons, if_neg (by omega), if_pos rfl, this]
    · rw [encodeValue, encodeInt_canonical_neg ds hd hz]
  | list items hi ih =>
    intro hlen
    have hb : ∀ b ∈ items, b.length < 2 ^ 63 := by
      intro b hb
      have := length_le_flatten b items hb
      simp only [List.length_append, List.length_cons] at hlen
      omega
    obtain ⟨vs, f, hloop, henc⟩ := decodeListLoop_items items (fun b h => ih b h (hb b h))
    refine ⟨.list vs, f + 1, ?_, ?_⟩
    · show decodeNext (f + 1) (108 :: (items.flatten ++ [101])) = _
      rw [decodeNext_succ_cons, if_neg (by omega), if_neg (by omega), if_pos rfl, hloop []]
      rfl
    · rw [encodeValue, henc]
      rfl
  | dict entries hk hs hv ih =>
    intro hlen
    have hb : ∀ e ∈ entries, e.2.1.length < 2 ^ 63 ∧ e.2.2.length < 2 ^ 63 := by
      intro e he
      have := length_le_flatten _ _
        (List.mem_map_of_mem (fun e => e.1 ++ 58 :: e.2.1 ++ e.2.2) he)
      simp only [List.length_append, List.length_cons] at hlen this
      omega
    have hn : (entries.map (fun e => e.2.1)).Nodup := List.Sorted.nodup hs
    obtain ⟨d, f, hkeys, hloop, hemit⟩ := decodeDictLoop_entries entries hk
      (fun e he => (hb e he).1) hn (fun e he => ih e he (hb e he).2)
    refine ⟨.dict d, f + 1, ?_, ?_⟩
    · show decodeNext (f + 1)
        (100 :: ((entries.map (fun e => e.1 ++ 58 :: e.2.1 ++ e.2.2)).flatten ++ [101])) = _
      rw [decodeNext_succ_cons, if_neg (by omega), if_neg (by omega), if_neg (by omega),
        if_pos rfl, hloop [] (fun e _ => by simp)]
      rfl
    · rw [encodeValue_dict, hkeys, sortStrings_of_sorted _ hs, ← hkeys,
        pairsOf_keys d (hkeys ▸ hn), emitDict, hemit]
      rfl

/-- C1. Round trip on canonical input: for a byte sequence `b` that is
well-formed canonical bencode text (and, being a Go byte sequence, has a length
that fits an `int`), `Decode` returns a value `v` and `Encode` of `v` writes
exactly `b`. -/
theorem Decode_Encode_canonical (b : List Nat) (hc : Canonical b) (hlen : b.length < 2 ^ 63) :
    ∃ v, Decode b = .ok v [] ∧ Encode v = .ok b := by
  obtain ⟨v, f, hdec, henc⟩ := canonical_decode_encode b hc hlen
  exact ⟨v, by rw [Decode_eq_of_decodeNext f b (by rw [hdec]; simp), hdec], henc⟩

theorem Decode_Encode_canonical_witness :
    Canonical (ascii "d1:ai-12e2:bcl4:spami0eee") ∧
      (ascii "d1:ai-12e2:bcl4:spami0eee").length < 2 ^ 63 ∧
      ∃ v, Decode (ascii "d1:ai-12e2:bcl4:spami0eee") = .ok v [] ∧
        Encode v = .ok (ascii "d1:ai-12e2:bcl4:spami0eee") :=
  have hc : Canonical (ascii "d1:ai-12e2:bcl4:spami0eee") :=
    Canonical.dict
      [(ascii "1", ascii "a", ascii "i-12e"), (ascii "2", ascii "bc", ascii "l4:spami0ee")]
      (by simp [MinimalDecimal, decimalValue, ascii])
      (by decide)
      (by
        intro e he
        simp only [List.mem_cons, List.mem_singleton, List.not_mem_nil, or_false] at he
        rcases he with rfl | rfl
        · exact Canonical.neg (ascii "12") (by simp [MinimalDecimal, ascii]) (by decide)
            (by decide)
        · exact Canonical.list [ascii "4:spam", ascii "i0e"] (by
            intro b hb
            simp only [List.mem_cons, List.mem_singleton, List.not_mem_nil, or_false] at hb
            rcases hb with rfl | rfl
            · exact Canonical.str (ascii "4") (ascii "spam") (by simp [MinimalDecimal, ascii])
                (by decide)
            · exact Canonical.nonneg (ascii "0") (by simp [MinimalDecimal, ascii]) (by decide)))
  ⟨hc, by decide, Decode_Encode_canonical _ hc (by decide)⟩

end Bencode

namespace Torrent

open Bencode

/-! ## The parser -/

theorem emitPairs_error_of_mem (ps : List (List Nat × Value)) (k : List Nat) (v : Value)
    (hmem : (k, v) ∈ ps) (e0 : Bencode.Err) (hv : encodeValue v = .error e0) :
    ∃ e, emitPairs ps = .error e := by
  induction ps with
  | nil => simp at hmem
  | cons p ps ih =>
    obtain ⟨k1, v1⟩ := p
    rw [emitPairs]
    cases h1 : encodeValue v1 with
    | error e => exact ⟨e, rfl⟩
    | ok out =>
      simp only
      rcases List.mem_cons.mp hmem with h | h
      · injection h with _ h2
        rw [← h2, hv] at h1
        simp at h1
      · obtain ⟨e, he⟩ := ih h
        rw [he]
        exact ⟨e, rfl⟩

theorem mapLookup_mem {α : Type} (d : List (List Nat × α)) (k : List Nat) (v : α)
    (h : mapLookup d k = some v) : k ∈ d.map Prod.fst := by
  by_contra hk
  rw [mapLookup_eq_none d k hk] at h
  simp at h

/-- A map holding a `[]byte` cannot be encoded, so it has no info-hash. -/
theorem calculateInfoHash_bytes (sha1 : List Nat → List Nat) (info : List (List Nat × Value))
    (k b : List Nat) (h : mapLookup info k = some (.bytes b)) :
    ∃ e, calculateInfoHash sha1 info = .error e := by
  have hk : k ∈ sortStrings (info.map Prod.fst) :=
    (sortStrings_perm _).mem_iff.mpr (mapLookup_mem info k _ h)
  have hmem : (k, Value.bytes b) ∈ pairsOf info (sortStrings (info.map Prod.fst)) := by
    unfold pairsOf
    rw [List.mem_filterMap]
    exact ⟨k, hk, by rw [h]; rfl⟩
  obtain ⟨e, he⟩ := emitPairs_error_of_mem _ k _ hmem .ErrUnsupportedType (by rw [encodeValue])
  unfold calculateInfoHash Encode
  rw [encodeValue_dict, emitDict, he]
  exact ⟨_, rfl⟩

theorem parseInfoDict_ok_pieces (info : List (List Nat × Value)) (st st1 : InfoDict)
    (h : parseInfoDict info st = .ok st1) :
    ∃ b, mapLookup info (ascii "pieces") = some (.bytes b) := by
  unfold parseInfoDict at h
  split at h
  · simp at h
  · split at h
    · simp at h
    · next b hb => exact ⟨b, hb⟩
    · simp at h
  · simp at h

theorem Parse_ne_ok (sha1 : List Nat → List Nat) (data : Value) (t : TorrentFile) :
    Parse sha1 data ≠ .ok t := by
  intro h
  unfold Parse at h
  split at h
  · next d =>
    split at h
    · simp at h
    · simp only at h
      split at h
      · simp at h
      · simp at h
      · split at h
        · simp at h
        · simp at h
        · split at h
          · simp at h
          · simp at h
          · split at h
            · simp at h
            · simp at h
            · split at h
              · simp at h
              · simp at h
              · split at h
                · simp at h
                · next info hinfo =>
                  split at h
                  · simp at h
                  · simp at h
                  · next infoDict hpi =>
                    obtain ⟨b, hb⟩ := parseInfoDict_ok_pieces _ _ _ hpi
                    obtain ⟨e, he⟩ := calculateInfoHash_bytes sha1 info _ b hb
                    rw [he] at h
                    simp at h
                · simp at h
    · simp at h
  · simp at h

end Torrent

namespace Torrent

open Bencode

theorem parseInfoDict_ok_inv (info : List (List Nat × Value)) (st st1 : InfoDict)
    (h : parseInfoDict info st = .ok st1) :
    mapLookup info (ascii "piece length") = some (.int st1.PieceLength) ∧
    mapLookup info (ascii "pieces") = some (.bytes st1.Pieces) ∧
    mapLookup info (ascii "name") = some (.str st1.Name) ∧
    (mapLookup info (ascii "private") = none ∧ st1.Private = st.Private ∨
      ∃ n, mapLookup info (ascii "private") = some (.int n) ∧ st1.Private = decide (n = 1)) ∧
    ((∃ files, mapLookup info (ascii "files") = some (.list files) ∧
        parseFiles files = .ok st1.Files ∧ st1.IsDirectory = true ∧ st1.Length = st.Length) ∨
      (mapLookup info (ascii "files") = none ∧
        mapLookup info (ascii "length") = some (.int st1.Length) ∧
        st1.IsDirectory = false ∧ st1.Files = st.Files)) := by
  unfold parseInfoDict at h
  split at h
  · simp at h
  · next p hp =>
    split at h
    · simp at h
    · next pieces hpieces =>
      simp only at h
      split at h
      · simp at h
      · simp at h
      · next st2 hpriv =>
        split at h
        · simp at h
        · simp at h
        · next st3 hmode =>
          split at h
          · simp at h
          · next name hname =>
            have hpriv2 : st2.PieceLength = p ∧ st2.Pieces = pieces ∧ st2.Length = st.Length ∧
                st2.Files = st.Files ∧
                (mapLookup info (ascii "private") = none ∧ st2.Private = st.Private ∨
                  ∃ n, mapLookup info (ascii "private") = some (.int n) ∧
                    st2.Private = decide (n = 1)) := by
              split at hpriv
              · next hnone =>
                injection hpriv with e
                subst e
                exact ⟨rfl, rfl, rfl, rfl, Or.inl ⟨hnone, rfl⟩⟩
              · next n hn =>
                injection hpriv with e
                subst e
                exact ⟨rfl, rfl, rfl, rfl, Or.inr ⟨n, hn, rfl⟩⟩
              · simp at hpriv
            obtain ⟨e1, e2, e3, e4, e5⟩ := hpriv2
            by_cases hf : (mapLookup info (ascii "files")).isSome = true
            · rw [if_pos hf] at hmode
              injection hmode with e
              subst e
              simp only [if_true] at h
              split at h
              · next files hfiles =>
                split at h
                · next fds hfds =>
                  injection h with e
                  subst e
                  exact ⟨by rw [hp, ← e1], by rw [hpieces, ← e2], hname, e5,
                    Or.inl ⟨files, hfiles, hfds, rfl, e3⟩⟩
                · simp at h
                · simp at h
              · simp at h
            · rw [if_neg hf] at hmode
              have hfn : mapLookup info (ascii "files") = none := by
                cases hx : mapLookup info (ascii "files") with
                | none => rfl
                | some x => rw [hx] at hf; simp at hf
              split at hmode
              · injection hmode with e
                subst e
                simp only [Bool.false_eq_true, if_false] at h
                split at h
                · next len hlen =>
                  injection h with e
                  subst e
                  exact ⟨by rw [hp, ← e1], by rw [hpieces, ← e2], hname, e5,
                    Or.inr ⟨hfn, hlen, rfl, e4⟩⟩
                · simp at h
              · simp at hmode
          · simp at h
    · simp at h
  · simp at h

theorem parsePathList_cases (l : List Value) :
    (∃ paths, parsePathList l = .ok paths ∧ l = paths.map Value.str) ∨
      ∃ msg, parsePathList l = .error (.ErrInvalidInfoDict msg) := by
  induction l with
  | nil => exact Or.inl ⟨[], rfl, rfl⟩
  | cons v l ih =>
    cases v with
    | str s =>
      rw [parsePathList]
      rcases ih with ⟨paths, h, hl⟩ | ⟨msg, h⟩
      · rw [h]
        exact Or.inl ⟨s :: paths, rfl, by rw [hl]; rfl⟩
      · rw [h]
        exact Or.inr ⟨msg, rfl⟩
    | int n => exact Or.inr ⟨_, rfl⟩
    | list l => exact Or.inr ⟨_, rfl⟩
    | dict d => exact Or.inr ⟨_, rfl⟩
    | bytes b => exact Or.inr ⟨_, rfl⟩

theorem parseFileDict_cases (fileVal : Value) :
    (∃ fd, parseFileDict fileVal = .ok fd ∧ FileEntryOf fileVal fd) ∨
      ∃ msg, parseFileDict fileVal = .error (.ErrInvalidInfoDict msg) := by
  unfold parseFileDict
  split
  · next fileDict =>
    split
    · exact Or.inr ⟨_, rfl⟩
    · next fileLength hlen =>
      split
      · exact Or.inr ⟨_, rfl⟩
      · next pathList hpath =>
        rcases parsePathList_cases pathList with ⟨paths, h, hl⟩ | ⟨msg, h⟩
        · rw [h]
          exact Or.inl ⟨_, rfl, fileDict, rfl, hlen, by rw [hpath, hl]⟩
        · rw [h]
          exact Or.inr ⟨msg, rfl⟩
      · exact Or.inr ⟨_, rfl⟩
    · exact Or.inr ⟨_, rfl⟩
  · exact Or.inr ⟨_, rfl⟩

theorem parseFiles_cases (files : List Value) :
    (∃ fds, parseFiles files = .ok fds ∧ List.Forall₂ FileEntryOf files fds) ∨
      ∃ msg, parseFiles files = .error (.ErrInvalidInfoDict msg) := by
  induction files with
  | nil => exact Or.inl ⟨[], rfl, List.Forall₂.nil⟩
  | cons v l ih =>
    rw [parseFiles]
    rcases parseFileDict_cases v with ⟨fd, h, hfd⟩ | ⟨msg, h⟩
    · rw [h]
      rcases ih with ⟨fds, h2, hl⟩ | ⟨msg, h2⟩
      · rw [h2]
        exact Or.inl ⟨fd :: fds, rfl, List.Forall₂.cons hfd hl⟩
      · rw [h2]
        exact Or.inr ⟨msg, rfl⟩
    · rw [h]
      exact Or.inr ⟨msg, rfl⟩

theorem parseInfoDict_cases (info : List (List Nat × Value)) (st : InfoDict) :
    (∃ st1, parseInfoDict info st = .ok st1) ∨
      ∃ msg, parseInfoDict info st = .error (.ErrInvalidInfoDict msg) := by
  unfold parseInfoDict
  split
  · exact Or.inr ⟨_, rfl⟩
  · split
    · exact Or.inr ⟨_, rfl⟩
    · simp only
      split
      · next e he =>
        split at he
        · simp at he
        · simp at he
        · injection he with he
          exact Or.inr ⟨_, by rw [he]⟩
      · next he =>
        split at he <;> simp at he
      · split
        · next e he =>
          split at he
          · simp at he
          · split at he
            · simp at he
            · injection he with he
              exact Or.inr ⟨_, by rw [he]⟩
        · next he =>
          split at he
          · simp at he
          · split at he <;> simp at he
        · split
          · exact Or.inr ⟨_, rfl⟩
          · split
            · split
              · next files _ =>
                rcases parseFiles_cases files with ⟨fds, h, _⟩ | ⟨msg, h⟩
                · rw [h]
                  exact Or.inl ⟨_, rfl⟩
                · rw [h]
                  exact Or.inr ⟨msg, rfl⟩
              · exact Or.inr ⟨_, rfl⟩
            · split
              · exact Or.inl ⟨_, rfl⟩
              · exact Or.inr ⟨_, rfl⟩
          · exact Or.inr ⟨_, rfl⟩
    · exact Or.inr ⟨_, rfl⟩
  · exact Or.inr ⟨_, rfl⟩

end Torrent

namespace Torrent

open Bencode

/-! ## Claims about the parser -/

/-- C6. `Parse` returns no `TorrentFile` for any value: `parseInfoDict` accepts
`pieces` only as a `[]byte`, which `Decode` never produces (byte strings are
decoded as `string`) and which `Encode` in `calculateInfoHash` cannot write. The
decoded well-formed single-file torrent with one 20-byte piece hash is rejected
with `pieces is not a byte string`. -/
theorem Parse_decoded_torrent (sha1 : List Nat → List Nat) :
    (∀ data t, Parse sha1 data ≠ .ok t) ∧
      Decode (ascii ("d8:announce1:u4:infod6:lengthi20e4:name1:a12:piece lengthi20e" ++
          "6:pieces20:aaaaaaaaaaaaaaaaaaaaee")) =
        .ok (.dict [(ascii "announce", .str (ascii "u")),
          (ascii "info", .dict [(ascii "length", .int 20), (ascii "name", .str (ascii "a")),
            (ascii "piece length", .int 20),
            (ascii "pieces", .str (ascii "aaaaaaaaaaaaaaaaaaaa"))])]) [] ∧
      Parse sha1 (.dict [(ascii "announce", .str (ascii "u")),
          (ascii "info", .dict [(ascii "length", .int 20), (ascii "name", .str (ascii "a")),
            (ascii "piece length", .int 20),
            (ascii "pieces", .str (ascii "aaaaaaaaaaaaaaaaaaaa"))])]) =
        .error (.ErrInvalidInfoDict "pieces is not a byte string") :=
  ⟨Parse_ne_ok sha1, rfl, rfl⟩

/-- C7. With `pieces` a `[]byte` of 3 bytes `Parse` returns the wrapped encoder
error of `calculateInfoHash`, which is not an `ErrInvalidInfoDict`; the length
check behind it is never reached. With `pieces` a `string` the error is
`pieces is not a byte string`, for 3 bytes and for 20 bytes alike. -/
theorem Parse_pieces_length (sha1 : List Nat → List Nat) :
    Parse sha1 (.dict [(ascii "announce", .str (ascii "u")),
        (ascii "info", .dict [(ascii "length", .int 1), (ascii "name", .str (ascii "a")),
          (ascii "piece length", .int 1), (ascii "pieces", .bytes [1, 2, 3])])]) =
      .error (.infoHashFailed .ErrUnsupportedType) ∧
    (Err.infoHashFailed .ErrUnsupportedType).isInvalidInfoDict = false ∧
    Parse sha1 (.dict [(ascii "announce", .str (ascii "u")),
        (ascii "info", .dict [(ascii "length", .int 1), (ascii "name", .str (ascii "a")),
          (ascii "piece length", .int 1), (ascii "pieces", .str [1, 2, 3])])]) =
      .error (.ErrInvalidInfoDict "pieces is not a byte string") ∧
    Parse sha1 (.dict [(ascii "announce", .str (ascii "u")),
        (ascii "info", .dict [(ascii "length", .int 1), (ascii "name", .str (ascii "a")),
          (ascii "piece length", .int 1),
          (ascii "pieces", .str (ascii "aaaaaaaaaaaaaaaaaaaa"))])]) =
      .error (.ErrInvalidInfoDict "pieces is not a byte string") :=
  ⟨rfl, rfl, rfl, rfl⟩

/-- C8. The type assertion `announceVal.(string)` is unchecked: a dictionary
whose `announce` is an integer, a list or a dictionary makes `Parse` panic,
also when the dictionary comes from `Decode`. -/
theorem Parse_announce_not_string (sha1 : List Nat → List Nat) (n : Int) (l : List Value)
    (m d : List (List Nat × Value)) :
    Parse sha1 (.dict ((ascii "announce", .int n) :: d)) = .fault ∧
    Parse sha1 (.dict ((ascii "announce", .list l) :: d)) = .fault ∧
    Parse sha1 (.dict ((ascii "announce", .dict m) :: d)) = .fault ∧
    Decode (ascii "d8:announcei1ee") = .ok (.dict [(ascii "announce", .int 1)]) [] ∧
    Parse sha1 (.dict [(ascii "announce", .int 1)]) = .fault :=
  ⟨rfl, rfl, rfl, rfl, rfl⟩

/-- C9, as stated, fails: an info dictionary with `piece length` 0 (and one with
`piece length` -5) and valid other fields is accepted by `parseInfoDict`. -/
theorem parseInfoDict_accepts_nonpositive_piece_length :
    parseInfoDict [(ascii "piece length", .int 0), (ascii "pieces", .bytes []),
        (ascii "name", .str (ascii "a")), (ascii "length", .int 1)] InfoDict.zero =
      .ok { InfoDict.zero with PieceLength := 0, Name := ascii "a", Length := 1 } ∧
    parseInfoDict [(ascii "piece length", .int (-5)), (ascii "pieces", .bytes []),
        (ascii "name", .str (ascii "a")), (ascii "length", .int 1)] InfoDict.zero =
      .ok { InfoDict.zero with PieceLength := -5, Name := ascii "a", Length := 1 } :=
  ⟨rfl, rfl⟩

/-- C9, amended. `parseInfoDict` requires `piece length` to be present and an
integer, and checks nothing more about it: without the key the call fails with
`no piece length`, with a value of another type it fails with
`piece length is not an integer` (both `ErrInvalidInfoDict`), and every
successful call has read an integer `piece length` and returns it unchanged as
`PieceLength`. Its sign is not checked: a single-file info dictionary with an
integer `piece length` `p` (negative and zero included), `pieces` a `[]byte`,
`name` a string, an integer `length` and no `private` is accepted with
`PieceLength = p`. -/
theorem parseInfoDict_piece_length (info : List (List Nat × Value)) (st : InfoDict) :
    (mapLookup info (ascii "piece length") = none →
      parseInfoDict info st = .error (.ErrInvalidInfoDict "no piece length")) ∧
    (∀ v, mapLookup info (ascii "piece length") = some v → (∀ p, v ≠ Value.int p) →
      parseInfoDict info st = .error (.ErrInvalidInfoDict "piece length is not an integer")) ∧
    (∀ st1, parseInfoDict info st = .ok st1 →
      mapLookup info (ascii "piece length") = some (.int st1.PieceLength)) ∧
    (∀ (p len : Int) (pieces name : List Nat),
      mapLookup info (ascii "piece length") = some (.int p) →
      mapLookup info (ascii "pieces") = some (.bytes pieces) →
      mapLookup info (ascii "private") = none →
      mapLookup info (ascii "files") = none →
      mapLookup info (ascii "length") = some (.int len) →
      mapLookup info (ascii "name") = some (.str name) →
      parseInfoDict info st =
        .ok { st with PieceLength := p, Pieces := pieces, IsDirectory := false, Name := name,
                      Length := len }) := by
  refine ⟨?_, ?_, ?_, ?_⟩
  · intro h
    unfold parseInfoDict
    simp only [h]
  · intro v h hv
    unfold parseInfoDict
    cases v with
    | int p => exact absurd rfl (hv p)
    | str s => simp only [h]
    | list l => simp only [h]
    | dict d => simp only [h]
    | bytes b => simp only [h]
  · intro st1 h
    exact (parseInfoDict_ok_inv info st st1 h).1
  · intro p len pieces name hp hpieces hpriv hfiles hlen hname
    unfold parseInfoDict
    simp only [hp, hpieces, hpriv, hfiles, hlen, hname, Option.isSome_none, Option.isSome_some,
      Bool.false_eq_true, if_false, if_true]

theorem parseInfoDict_piece_length_witness :
    parseInfoDict [(ascii "pieces", .bytes [7]), (ascii "name", .str (ascii "a")),
        (ascii "length", .int 1)] InfoDict.zero =
      .error (.ErrInvalidInfoDict "no piece length") ∧
    parseInfoDict [(ascii "piece length", .str (ascii "5")), (ascii "pieces", .bytes [7]),
        (ascii "name", .str (ascii "a")), (ascii "length", .int 1)] InfoDict.zero =
      .error (.ErrInvalidInfoDict "piece length is not an integer") ∧
    mapLookup [(ascii "piece length", Value.int (-5)), (ascii "pieces", .bytes [7]),
        (ascii "name", .str (ascii "a")), (ascii "length", .int 1)] (ascii "piece length") =
      some (.int ({ InfoDict.zero with PieceLength := -5, Pieces := [7], IsDirectory := false,
                                       Name := ascii "a", Length := 1 } : InfoDict).PieceLength) ∧
    parseInfoDict [(ascii "piece length", .int (-5)), (ascii "pieces", .bytes [7]),
        (ascii "name", .str (ascii "a")), (ascii "length", .int 1)] InfoDict.zero =
      .ok { InfoDict.zero with PieceLength := -5, Pieces := [7], IsDirectory := false,
                               Name := ascii "a", Length := 1 } :=
  ⟨(parseInfoDict_piece_length [(ascii "pieces", .bytes [7]), (ascii "name", .str (ascii "a")),
        (ascii "length", .int 1)] InfoDict.zero).1 rfl,
   (parseInfoDict_piece_length [(ascii "piece length", .str (ascii "5")),
        (ascii "pieces", .bytes [7]), (ascii "name", .str (ascii "a")),
        (ascii "length", .int 1)] InfoDict.zero).2.1 _ rfl (fun _ h => Value.noConfusion h),
   (parseInfoDict_piece_length [(ascii "piece length", .int (-5)), (ascii "pieces", .bytes [7]),
        (ascii "name", .str (ascii "a")), (ascii "length", .int 1)] InfoDict.zero).2.2.1 _ rfl,
   (parseInfoDict_piece_length [(ascii "piece length", .int (-5)), (ascii "pieces", .bytes [7]),
        (ascii "name", .str (ascii "a")), (ascii "length", .int 1)] InfoDict.zero).2.2.2
      (-5) 1 [7] (ascii "a") rfl rfl rfl rfl rfl rfl⟩

/-- C10. Mode selection. When `parseInfoDict` succeeds on the zero `InfoDict`,
`IsDirectory` is true exactly when the dictionary has the key `files`; in
directory mode `Length` stays 0 and `Files` holds, in order, one record for each
element of `files`; otherwise `Files` is empty and `Length` is the `length`
integer. With neither `files` nor `length` the call fails with an
`ErrInvalidInfoDict`. -/
theorem parseInfoDict_mode_selection (info : List (List Nat × Value)) :
    (∀ st, parseInfoDict info InfoDict.zero = .ok st →
      (st.IsDirectory = true ↔ (mapLookup info (ascii "files")).isSome = true) ∧
      (st.IsDirectory = true → st.Length = 0 ∧
        ∃ files, mapLookup info (ascii "files") = some (.list files) ∧
          List.Forall₂ FileEntryOf files st.Files) ∧
      (st.IsDirectory = false → st.Files = [] ∧
        mapLookup info (ascii "length") = some (.int st.Length))) ∧
    (mapLookup info (ascii "files") = none → mapLookup info (ascii "length") = none →
      ∃ msg, parseInfoDict info InfoDict.zero = .error (.ErrInvalidInfoDict msg)) := by
  constructor
  · intro st h
    obtain ⟨_, _, _, _, hmode⟩ := parseInfoDict_ok_inv info _ st h
    rcases hmode with ⟨files, hfiles, hparse, hdir, hlen⟩ | ⟨hfiles, hlen, hdir, hfs⟩
    · have hrel : List.Forall₂ FileEntryOf files st.Files := by
        rcases parseFiles_cases files with ⟨fds, h1, hl⟩ | ⟨msg, h1⟩
        · rw [hparse] at h1
          injection h1 with h1
          rw [h1]
          exact hl
        · rw [hparse] at h1
          simp at h1
      refine ⟨?_, ?_, ?_⟩
      · simp [hdir, hfiles]
      · intro _
        exact ⟨hlen, files, hfiles, hrel⟩
      · intro hd
        rw [hdir] at hd
        simp at hd
    · refine ⟨?_, ?_, ?_⟩
      · simp [hdir, hfiles]
      · intro hd
        rw [hdir] at hd
        simp at hd
      · intro _
        exact ⟨hfs, hlen⟩
  · intro hfiles hlen
    rcases parseInfoDict_cases info InfoDict.zero with ⟨st, h⟩ | h
    · obtain ⟨_, _, _, _, hmode⟩ := parseInfoDict_ok_inv info _ st h
      rcases hmode with ⟨files, hf, _⟩ | ⟨_, hl, _⟩
      · rw [hfiles] at hf
        simp at hf
      · rw [hlen] at hl
        simp at hl
    · exact h

theorem parseInfoDict_mode_selection_witness :
    ∃ st, parseInfoDict [(ascii "piece length", .int 4), (ascii "pieces", .bytes []),
        (ascii "name", .str (ascii "dir")),
        (ascii "files", .list [
          .dict [(ascii "length", .int 3), (ascii "path", .list [.str (ascii "a")])],
          .dict [(ascii "length", .int 0),
            (ascii "path", .list [.str (ascii "b"), .str (ascii "c")])]])]
        InfoDict.zero = .ok st ∧
      st.Files = [{ Length := 3, Path := [ascii "a"] },
        { Length := 0, Path := [ascii "b", ascii "c"] }] ∧
      (st.IsDirectory = true ↔ (mapLookup [(ascii "piece length", Value.int 4),
        (ascii "pieces", .bytes []), (ascii "name", .str (ascii "dir")),
        (ascii "files", .list [
          .dict [(ascii "length", .int 3), (ascii "path", .list [.str (ascii "a")])],
          .dict [(ascii "length", .int 0),
            (ascii "path", .list [.str (ascii "b"), .str (ascii "c")])]])]
        (ascii "files")).isSome = true) ∧
      (st.IsDirectory = true → st.Length = 0 ∧
        ∃ files, mapLookup [(ascii "piece length", Value.int 4),
          (ascii "pieces", .bytes []), (ascii "name", .str (ascii "dir")),
          (ascii "files", .list [
            .dict [(ascii "length", .int 3), (ascii "path", .list [.str (ascii "a")])],
            .dict [(ascii "length", .int 0),
              (ascii "path", .list [.str (ascii "b"), .str (ascii "c")])]])]
          (ascii "files") = some (.list files) ∧
          List.Forall₂ FileEntryOf files st.Files) ∧
      (st.IsDirectory = false → st.Files = [] ∧
        mapLookup [(ascii "piece length", Value.int 4),
          (ascii "pieces", .bytes []), (ascii "name", .str (ascii "dir")),
          (ascii "files", .list [
            .dict [(ascii "length", .int 3), (ascii "path", .list [.str (ascii "a")])],
            .dict [(ascii "length", .int 0),
              (ascii "path", .list [.str (ascii "b"), .str (ascii "c")])]])]
          (ascii "length") = some (.int st.Length)) :=
  ⟨_, rfl, rfl, (parseInfoDict_mode_selection _).1 _ rfl⟩

end Torrent

namespace Torrent

open Bencode

/-! ## Mode selection with both keys; piece sizes -/

/-- C11, as stated, fails: an info dictionary holding both `files` and `length`
is accepted by `parseInfoDict`, in directory mode. -/
theorem parseInfoDict_accepts_files_and_length :
    parseInfoDict [(ascii "piece length", .int 4), (ascii "pieces", .bytes []),
        (ascii "name", .str (ascii "dir")), (ascii "length", .int 7),
        (ascii "files", .list [
          .dict [(ascii "length", .int 3), (ascii "path", .list [.str (ascii "a")])]])]
        InfoDict.zero =
      .ok { InfoDict.zero with PieceLength := 4, Name := ascii "dir", IsDirectory := true,
                               Files := [{ Length := 3, Path := [ascii "a"] }] } :=
  rfl

/-- C11, amended. The presence of `files` selects directory mode whether or not
`length` is present as well: with `files` a list that `parseFiles` accepts, an
integer `piece length`, `pieces` a `[]byte`, `name` a string and no `private`,
`parseInfoDict` succeeds with `IsDirectory` set, `Files` taken from `files` and
`Length` left as it was, whatever the dictionary holds under `length`. -/
theorem parseInfoDict_files_precedence (info : List (List Nat × Value)) (st : InfoDict)
    (p : Int) (pieces name : List Nat) (files : List Value) (fds : List FileDict)
    (hp : mapLookup info (ascii "piece length") = some (.int p))
    (hpieces : mapLookup info (ascii "pieces") = some (.bytes pieces))
    (hpriv : mapLookup info (ascii "private") = none)
    (hfiles : mapLookup info (ascii "files") = some (.list files))
    (hparse : parseFiles files = .ok fds)
    (hname : mapLookup info (ascii "name") = some (.str name)) :
    parseInfoDict info st =
      .ok { st with PieceLength := p, Pieces := pieces, IsDirectory := true, Name := name,
                    Files := fds } := by
  unfold parseInfoDict
  simp only [hp, hpieces, hpriv, hfiles, hparse, hname, Option.isSome_some, if_true]

theorem parseInfoDict_files_precedence_witness :
    parseInfoDict [(ascii "piece length", .int 4), (ascii "pieces", .bytes []),
        (ascii "name", .str (ascii "dir")), (ascii "length", .int 7),
        (ascii "files", .list [
          .dict [(ascii "length", .int 3), (ascii "path", .list [.str (ascii "a")])]])]
        InfoDict.zero =
      .ok { InfoDict.zero with PieceLength := 4, Pieces := [], IsDirectory := true,
                               Name := ascii "dir",
                               Files := [{ Length := 3, Path := [ascii "a"] }] } :=
  parseInfoDict_files_precedence _ InfoDict.zero 4 [] (ascii "dir") _ _ rfl rfl rfl rfl rfl rfl

theorem wrapInt64_of_range (x : Int) (h1 : -2 ^ 63 ≤ x) (h2 : x < 2 ^ 63) : wrapInt64 x = x := by
  unfold wrapInt64
  omega

theorem wrapInt64_add_wrap (x y : Int) : wrapInt64 (wrapInt64 x + y) = wrapInt64 (x + y) := by
  unfold wrapInt64
  omega

theorem foldl_wrap_sum (files : List FileDict) (a : Int) :
    files.foldl (fun length file => wrapInt64 (length + file.Length)) (wrapInt64 a) =
      wrapInt64 (a + (files.map (fun f => f.Length)).sum) := by
  induction files generalizing a with
  | nil => simp
  | cons f fs ih =>
    simp only [List.foldl_cons, List.map_cons, List.sum_cons]
    rw [wrapInt64_add_wrap, ih, add_assoc]

theorem TotalLength_directory (t : TorrentFile) (h : t.Info.IsDirectory = true) :
    TotalLength t = wrapInt64 ((t.Info.Files.map (fun f => f.Length)).sum) := by
  unfold TotalLength
  rw [if_neg (by simp [h])]
  have := foldl_wrap_sum t.Info.Files 0
  rw [wrapInt64_of_range 0 (by norm_num) (by norm_num), zero_add] at this
  exact this

/-- C12. With a positive `PieceLength`, `PieceSize` is 0 for an index outside
`[0, NumPieces)`, `PieceLength` for an index before the last piece, and for the
last piece the remainder of `TotalLength` by `PieceLength` (Go's `%`, the usual
remainder when `TotalLength` is not negative), or `PieceLength` when that
remainder is 0. `TotalLength` is `Info.Length` for a single-file torrent and the
`int64` sum of the file lengths for a multi-file one, which is their sum when it
fits 64 bits. -/
theorem PieceSize_cases (t : TorrentFile) (index : Int) (hpl : 0 < t.Info.PieceLength) :
    ((index < 0 ∨ NumPieces t ≤ index) → PieceSize t index = .ok 0) ∧
    (0 ≤ index → index < NumPieces t - 1 → PieceSize t index = .ok t.Info.PieceLength) ∧
    (0 ≤ index → index = NumPieces t - 1 →
      PieceSize t index =
        .ok (if (TotalLength t).tmod t.Info.PieceLength = 0 then t.Info.PieceLength
             else (TotalLength t).tmod t.Info.PieceLength)) ∧
    (0 ≤ TotalLength t →
      (TotalLength t).tmod t.Info.PieceLength = TotalLength t % t.Info.PieceLength) ∧
    (t.Info.IsDirectory = false → TotalLength t = t.Info.Length) ∧
    (t.Info.IsDirectory = true →
      TotalLength t = wrapInt64 ((t.Info.Files.map (fun f => f.Length)).sum) ∧
      (-2 ^ 63 ≤ (t.Info.Files.map (fun f => f.Length)).sum →
        (t.Info.Files.map (fun f => f.Length)).sum < 2 ^ 63 →
        TotalLength t = (t.Info.Files.map (fun f => f.Length)).sum)) := by
  refine ⟨?_, ?_, ?_, ?_, ?_, ?_⟩
  · intro h
    unfold PieceSize
    rw [if_pos (by omega)]
  · intro h0 h1
    unfold PieceSize
    rw [if_neg (by omega), if_pos h1]
  · intro h0 h1
    unfold PieceSize
    rw [if_neg (by omega), if_neg (by omega), if_neg (by omega)]
    simp only
    split <;> rfl
  · intro h
    exact Int.tmod_eq_emod h (le_of_lt hpl)
  · intro h
    unfold TotalLength
    rw [if_pos (by simp [h])]
  · intro h
    refine ⟨TotalLength_directory t h, fun h1 h2 => ?_⟩
    rw [TotalLength_directory t h, wrapInt64_of_range _ h1 h2]

theorem PieceSize_cases_witness :
    PieceSize { TorrentFile.zero with
        Info := { InfoDict.zero with PieceLength := 16384, Length := 16384 * 5 }
        PiecesHash := List.replicate 5 [] } 4 = .ok 16384 ∧
    PieceSize { TorrentFile.zero with
        Info := { InfoDict.zero with PieceLength := 16384, Length := 16384 * 4 + 100 }
        PiecesHash := List.replicate 5 [] } 4 = .ok 100 ∧
    PieceSize { TorrentFile.zero with
        Info := { InfoDict.zero with PieceLength := 16384, Length := 16384 * 4 + 100 }
        PiecesHash := List.replicate 5 [] } 3 = .ok 16384 ∧
    PieceSize { TorrentFile.zero with
        Info := { InfoDict.zero with PieceLength := 16384, Length := 16384 * 4 + 100 }
        PiecesHash := List.replicate 5 [] } 5 = .ok 0 :=
  ⟨(PieceSize_cases { TorrentFile.zero with
        Info := { InfoDict.zero with PieceLength := 16384, Length := 16384 * 5 }
        PiecesHash := List.replicate 5 [] } 4 (by decide)).2.2.1 (by decide) (by decide),
   (PieceSize_cases { TorrentFile.zero with
        Info := { InfoDict.zero with PieceLength := 16384, Length := 16384 * 4 + 100 }
        PiecesHash := List.replicate 5 [] } 4 (by decide)).2.2.1 (by decide) (by decide),
   (PieceSize_cases { TorrentFile.zero with
        Info := { InfoDict.zero with PieceLength := 16384, Length := 16384 * 4 + 100 }
        PiecesHash := List.replicate 5 [] } 3 (by decide)).2.1 (by decide) (by decide),
   (PieceSize_cases { TorrentFile.zero with
        Info := { InfoDict.zero with PieceLength := 16384, Length := 16384 * 4 + 100 }
        PiecesHash := List.replicate 5 [] } 5 (by decide)).1 (by decide)⟩

end Torrent

namespace Torrent

open Bencode

/-! ## Files of a piece -/

theorem mem_withStarts (files : List FileDict) (start : Int) (sf : Int × FileDict)
    (h : sf ∈ withStarts files start) (hn : ∀ f ∈ files, 0 ≤ f.Length) :
    sf.2 ∈ files ∧ start ≤ sf.1 := by
  induction files generalizing start with
  | nil => simp [withStarts] at h
  | cons f fs ih =>
    rw [withStarts] at h
    rcases List.mem_cons.mp h with e | e
    · subst e
      exact ⟨List.mem_cons_self _ _, le_refl _⟩
    · have := ih _ e (fun g hg => hn g (List.mem_cons_of_mem _ hg))
      have hf := hn f (List.mem_cons_self _ _)
      exact ⟨List.mem_cons_of_mem _ this.1, by omega⟩

theorem filePathLoop_eq (join : List (List Nat) → List Nat) (name : List Nat) (a b : Int)
    (files : List FileDict) (off : Int) (acc : List (List Nat))
    (hn : ∀ f ∈ files, 0 ≤ f.Length) (hoff : 0 ≤ off)
    (hsum : off + (files.map (fun f => f.Length)).sum < 2 ^ 63) :
    filePathLoop join name a b files off acc =
      acc ++ ((withStarts files off).filter
        (fun sf => decide (sf.1 + sf.2.Length > a ∧ sf.1 < b))).map
          (fun sf => join (name :: sf.2.Path)) := by
  induction files generalizing off acc with
  | nil => simp [filePathLoop, withStarts]
  | cons f fs ih =>
    have hf := hn f (List.mem_cons_self _ _)
    have hrest : 0 ≤ (fs.map (fun f => f.Length)).sum := by
      apply List.sum_nonneg
      intro x hx
      obtain ⟨g, hg, rfl⟩ := List.mem_map.mp hx
      exact hn g (List.mem_cons_of_mem _ hg)
    simp only [List.map_cons, List.sum_cons] at hsum
    have hw : wrapInt64 (off + f.Length) = off + f.Length :=
      wrapInt64_of_range _ (by omega) (by omega)
    rw [filePathLoop, withStarts]
    simp only [hw]
    rw [ih (off + f.Length) _ (fun g hg => hn g (List.mem_cons_of_mem _ hg)) (by omega)
      (by omega)]
    by_cases hc : off + f.Length > a ∧ off < b
    · simp [hc, List.filter_cons]
    · simp [hc, List.filter_cons]

theorem overlap_iff (a b s len : Int) (hab : a < b) (hlen : 0 ≤ len) :
    (s + len > a ∧ s < b) ↔ (max s a < min (s + len) b ∨ (len = 0 ∧ a < s ∧ s < b)) := by
  simp only [lt_min_iff, max_lt_iff]
  omega

theorem PieceSize_pos (t : TorrentFile) (index : Int) (hpl : 0 < t.Info.PieceLength)
    (htot : 0 ≤ TotalLength t) (h0 : 0 ≤ index) (h1 : index < NumPieces t) :
    ∃ size, PieceSize t index = .ok size ∧ 0 < size ∧ size ≤ t.Info.PieceLength := by
  unfold PieceSize
  rw [if_neg (by omega)]
  by_cases h2 : index < NumPieces t - 1
  · rw [if_pos h2]
    exact ⟨_, rfl, hpl, le_refl _⟩
  · rw [if_neg h2, if_neg (by omega)]
    simp only
    have hnn := Int.tmod_nonneg t.Info.PieceLength htot
    have hlt := Int.tmod_lt_of_pos (TotalLength t) hpl
    split
    · exact ⟨_, rfl, hpl, le_refl _⟩
    · next hne => exact ⟨_, rfl, by omega, by omega⟩

end Torrent

namespace Torrent

open Bencode

/-- C13, as stated, fails: a zero-length file that starts strictly inside the
piece is listed. Files `a` (3 bytes), `b` (0 bytes), `c` (3 bytes) and one piece
of 6 bytes: all three paths are returned. -/
theorem FilePathForPiece_lists_empty_file :
    FilePathForPiece (fun segs => List.intercalate [47] segs)
      { TorrentFile.zero with
        Info := { InfoDict.zero with
          PieceLength := 6, Name := ascii "d", IsDirectory := true
          Files := [{ Length := 3, Path := [ascii "a"] }, { Length := 0, Path := [ascii "b"] },
            { Length := 3, Path := [ascii "c"] }] }
        PiecesHash := [[]] } 0 =
      .ok [ascii "d/a", ascii "d/b", ascii "d/c"] :=
  rfl

/-- C13, amended. For a multi-file torrent with a positive `PieceLength`,
non-negative file lengths and offsets that fit 64 bits, and an in-range index,
`FilePathForPiece` lists, in file-list order, the joined paths of exactly the
files with `fileEnd > pieceOffset` and `fileStart < pieceEnd`: the files whose
byte range has a byte in common with the piece's range
`[index*PieceLength, index*PieceLength + PieceSize(index))`, and the empty files
that start strictly inside it. A single-file torrent gives the one name, an
out-of-range index gives nothing. -/
theorem FilePathForPiece_files (join : List (List Nat) → List Nat) (t : TorrentFile)
    (index : Int) (hpl : 0 < t.Info.PieceLength)
    (hn : ∀ f ∈ t.Info.Files, 0 ≤ f.Length)
    (hsum : (t.Info.Files.map (fun f => f.Length)).sum < 2 ^ 63)
    (hpieces : NumPieces t * t.Info.PieceLength < 2 ^ 63) :
    ((index < 0 ∨ NumPieces t ≤ index) → FilePathForPiece join t index = .ok []) ∧
    (0 ≤ index → index < NumPieces t → t.Info.IsDirectory = false →
      FilePathForPiece join t index = .ok [t.Info.Name]) ∧
    (0 ≤ index → index < NumPieces t → t.Info.IsDirectory = true →
      ∃ size, PieceSize t index = .ok size ∧ 0 < size ∧
        FilePathForPiece join t index =
          .ok (((withStarts t.Info.Files 0).filter (fun sf =>
              overlapsPiece (index * t.Info.PieceLength) (index * t.Info.PieceLength + size) sf ||
              emptyInsidePiece (index * t.Info.PieceLength)
                (index * t.Info.PieceLength + size) sf)).map
            (fun sf => join (t.Info.Name :: sf.2.Path)))) := by
  refine ⟨?_, ?_, ?_⟩
  · intro h
    unfold FilePathForPiece
    rw [if_pos (by omega)]
  · intro h0 h1 hd
    unfold FilePathForPiece
    rw [if_neg (by omega), if_pos (by simp [hd])]
  · intro h0 h1 hd
    have hs0 : 0 ≤ (t.Info.Files.map (fun f => f.Length)).sum := by
      apply List.sum_nonneg
      intro x hx
      obtain ⟨g, hg, rfl⟩ := List.mem_map.mp hx
      exact hn g hg
    have htot : 0 ≤ TotalLength t := by
      rw [TotalLength_directory t hd, wrapInt64_of_range _ (by omega) hsum]
      exact hs0
    obtain ⟨size, hsize, hpos, hle⟩ := PieceSize_pos t index hpl htot h0 h1
    have hmul0 : 0 ≤ index * t.Info.PieceLength := mul_nonneg h0 (le_of_lt hpl)
    have hmul1 : index * t.Info.PieceLength + t.Info.PieceLength ≤
        NumPieces t * t.Info.PieceLength := by
      have : (index + 1) * t.Info.PieceLength ≤ NumPieces t * t.Info.PieceLength :=
        Int.mul_le_mul_of_nonneg_right (by omega) (le_of_lt hpl)
      rw [add_mul, one_mul] at this
      exact this
    have hw1 : wrapInt64 (index * t.Info.PieceLength) = index * t.Info.PieceLength :=
      wrapInt64_of_range _ (by omega) (by omega)
    have hw2 : wrapInt64 (index * t.Info.PieceLength + size) =
        index * t.Info.PieceLength + size :=
      wrapInt64_of_range _ (by omega) (by omega)
    refine ⟨size, hsize, hpos, ?_⟩
    unfold FilePathForPiece
    rw [if_neg (by omega), if_neg (by simp [hd])]
    simp only [hsize, hw1, hw2]
    rw [filePathLoop_eq join _ _ _ _ 0 [] hn (le_refl _) (by omega), List.nil_append]
    congr 2
    apply List.filter_congr
    intro sf hsf
    have hm := mem_withStarts _ _ _ hsf hn
    have hiff := overlap_iff (index * t.Info.PieceLength) (index * t.Info.PieceLength + size)
      sf.1 sf.2.Length (by omega) (hn _ hm.1)
    rw [Bool.eq_iff_iff]
    simp only [overlapsPiece, emptyInsidePiece, Bool.or_eq_true, decide_eq_true_eq]
    exact hiff

theorem FilePathForPiece_files_witness :
    ∃ size, PieceSize { TorrentFile.zero with
        Info := { InfoDict.zero with
          PieceLength := 4, Name := ascii "d", IsDirectory := true
          Files := [{ Length := 3, Path := [ascii "a"] }, { Length := 0, Path := [ascii "b"] },
            { Length := 6, Path := [ascii "c"] }] }
        PiecesHash := [[], [], []] } 1 = .ok size ∧ 0 < size ∧
      FilePathForPiece (fun segs => List.intercalate [47] segs)
        { TorrentFile.zero with
          Info := { InfoDict.zero with
            PieceLength := 4, Name := ascii "d", IsDirectory := true
            Files := [{ Length := 3, Path := [ascii "a"] },
              { Length := 0, Path := [ascii "b"] }, { Length := 6, Path := [ascii "c"] }] }
          PiecesHash := [[], [], []] } 1 =
        .ok (((withStarts [{ Length := 3, Path := [ascii "a"] },
              { Length := 0, Path := [ascii "b"] }, { Length := 6, Path := [ascii "c"] }]
              0).filter (fun sf =>
              overlapsPiece (1 * 4) (1 * 4 + size) sf ||
              emptyInsidePiece (1 * 4) (1 * 4 + size) sf)).map
            (fun sf => List.intercalate [47] (ascii "d" :: sf.2.Path))) :=
  (FilePathForPiece_files (fun segs => List.intercalate [47] segs)
    { TorrentFile.zero with
      Info := { InfoDict.zero with
        PieceLength := 4, Name := ascii "d", IsDirectory := true
        Files := [{ Length := 3, Path := [ascii "a"] }, { Length := 0, Path := [ascii "b"] },
          { Length := 6, Path := [ascii "c"] }] }
      PiecesHash := [[], [], []] } 1 (by decide) (by decide) (by decide) (by decide)).2.2
    (by decide) (by decide) rfl

end Torrent

namespace Tracker

open Bencode

/-! ## Peer lists -/

theorem getD_of_drop (l : List Nat) (k j : Nat) : (l.drop k).getD j 0 = l.getD (k + j) 0 := by
  simp [List.getD_eq_getElem?_getD, List.getElem?_drop]

theorem take4_drop (l : List Nat) (k : Nat) (h : k + 4 ≤ l.length) :
    (l.drop k).take 4 = [l.getD k 0, l.getD (k + 1) 0, l.getD (k + 2) 0, l.getD (k + 3) 0] := by
  have hlen : 4 ≤ (l.drop k).length := by
    rw [List.length_drop]
    omega
  have e0 := getD_of_drop l k 0
  have e1 := getD_of_drop l k 1
  have e2 := getD_of_drop l k 2
  have e3 := getD_of_drop l k 3
  rw [Nat.add_zero] at e0
  rw [← e0, ← e1, ← e2, ← e3]
  match hd : l.drop k, hlen with
  | a :: b :: c :: d :: rest, _ => simp

theorem Uint16_take2_drop (l : List Nat) (k : Nat) (h : k + 2 ≤ l.length) :
    Uint16 ((l.drop k).take 2) = l.getD k 0 * 256 + l.getD (k + 1) 0 := by
  have hlen : 2 ≤ (l.drop k).length := by
    rw [List.length_drop]
    omega
  have e0 := getD_of_drop l k 0
  have e1 := getD_of_drop l k 1
  rw [Nat.add_zero] at e0
  rw [← e0, ← e1]
  match hd : l.drop k, hlen with
  | a :: b :: rest, _ => simp [Uint16]

/-- C14. `parseCompactPeers` succeeds exactly when the byte count is a multiple
of 6 and fails otherwise; on success there are `len/6` peers, and peer `i` has
the address bytes `body[6i..6i+3]` and the port `256*body[6i+4] + body[6i+5]`.
The group `[192,168,1,1,0x1A,0xE1]` is the peer `192.168.1.1` with port 6881. -/
theorem parseCompactPeers_spec (body : List Nat) :
    ((∃ peers, parseCompactPeers body = .ok peers) ↔ body.length % 6 = 0) ∧
    (body.length % 6 ≠ 0 → ∃ e, parseCompactPeers body = .error e) ∧
    (∀ peers, parseCompactPeers body = .ok peers →
      peers.length = body.length / 6 ∧
      ∀ i (h : i < peers.length),
        6 * i + 5 < body.length ∧
        (peers.get ⟨i, h⟩).IP =
          [body.getD (6 * i) 0, body.getD (6 * i + 1) 0, body.getD (6 * i + 2) 0,
            body.getD (6 * i + 3) 0] ∧
        (peers.get ⟨i, h⟩).Port =
          ((256 * body.getD (6 * i + 4) 0 + body.getD (6 * i + 5) 0 : Nat) : Int)) ∧
    parseCompactPeers [192, 168, 1, 1, 0x1A, 0xE1] =
      .ok [{ Peer.zero with IP := [192, 168, 1, 1], Port := 6881 }] := by
  refine ⟨?_, ?_, ?_, rfl⟩
  · unfold parseCompactPeers
    constructor
    · rintro ⟨peers, h⟩
      by_contra hne
      rw [if_pos hne] at h
      simp at h
    · intro h
      rw [if_neg (by omega)]
      exact ⟨_, rfl⟩
  · intro h
    unfold parseCompactPeers
    rw [if_pos h]
    exact ⟨_, rfl⟩
  · intro peers h
    unfold parseCompactPeers at h
    by_cases hne : body.length % 6 ≠ 0
    · rw [if_pos hne] at h
      simp at h
    · rw [if_neg hne] at h
      injection h with h
      subst h
      refine ⟨by simp, ?_⟩
      intro i hi
      have hi2 : i < body.length / 6 := by simpa using hi
      have hb : 6 * i + 5 < body.length := by omega
      refine ⟨hb, ?_, ?_⟩
      · simp only [List.get_eq_getElem, List.getElem_map, List.getElem_range]
        rw [take4_drop body (i * 6) (by omega), Nat.mul_comm]
      · simp only [List.get_eq_getElem, List.getElem_map, List.getElem_range]
        rw [Uint16_take2_drop body (i * 6 + 4) (by omega), Nat.mul_comm i 6,
          Nat.mul_comm 256]

theorem parseCompactPeers_spec_witness :
    parseCompactPeers [10, 0, 0, 1, 0, 80, 10, 0, 0, 2, 1, 0] =
        .ok [{ Peer.zero with IP := [10, 0, 0, 1], Port := 80 },
          { Peer.zero with IP := [10, 0, 0, 2], Port := 256 }] ∧
      [({ Peer.zero with IP := [10, 0, 0, 1], Port := 80 } : Peer),
          { Peer.zero with IP := [10, 0, 0, 2], Port := 256 }].length =
        [10, 0, 0, 1, 0, 80, 10, 0, 0, 2, 1, 0].length / 6 ∧
      ((∃ peers, parseCompactPeers [1, 2, 3, 4, 5] = .ok peers) ↔
        [1, 2, 3, 4, 5].length % 6 = 0) :=
  ⟨rfl, ((parseCompactPeers_spec [10, 0, 0, 1, 0, 80, 10, 0, 0, 2, 1, 0]).2.2.1 _ rfl).1,
    (parseCompactPeers_spec [1, 2, 3, 4, 5]).1⟩

end Tracker

namespace Tracker

open Bencode

/-! ## Announce responses -/

/-- C15. A response body that decodes to a dictionary with a string
`failure reason` `r` gives no response but the error whose message is `r`
followed by `: tracker error`, whatever else the dictionary holds. -/
theorem parseAnnounceParams_failure_reason (parseIP : List Nat → Option (List Nat))
    (body rest : List Nat) (dict : List (List Nat × Value)) (r : List Nat)
    (hdec : Decode body = .ok (.dict dict) rest)
    (hr : mapLookup dict (ascii "failure reason") = some (.str r)) :
    parseAnnounceParams parseIP body = .error (.text (r ++ ascii ": tracker error")) := by
  unfold parseAnnounceParams
  simp only [hdec, hr]

theorem parseAnnounceParams_failure_reason_witness :
    parseAnnounceParams (fun _ => none)
        (ascii "d14:failure reason17:torrent not found8:intervali5e5:peersi0ee") =
      .error (.text (ascii "torrent not found" ++ ascii ": tracker error")) :=
  parseAnnounceParams_failure_reason (fun _ => none)
    (ascii "d14:failure reason17:torrent not found8:intervali5e5:peersi0ee") []
    [(ascii "failure reason", .str (ascii "torrent not found")), (ascii "interval", .int 5),
      (ascii "peers", .int 0)]
    (ascii "torrent not found") rfl rfl

/-- C16. A response with integer `interval`, `complete` and `incomplete` and a
compact `peers` string of 6 bytes is rejected with `invalid interval value`;
without `interval` it is rejected with `invalid complete value`; with
`incomplete` and `peers` only it is accepted, with `Incomplete` left 0. -/
theorem parseAnnounceParams_integers (parseIP : List Nat → Option (List Nat)) :
    parseAnnounceParams parseIP
        (ascii "d8:completei5e10:incompletei3e8:intervali1800e5:peers6:" ++
          [192, 168, 1, 1, 0x1A, 0xE1] ++ ascii "e") =
      .error (.text (ascii "invalid interval value")) ∧
    parseAnnounceParams parseIP
        (ascii "d8:completei5e10:incompletei3e5:peers6:" ++
          [192, 168, 1, 1, 0x1A, 0xE1] ++ ascii "e") =
      .error (.text (ascii "invalid complete value")) ∧
    parseAnnounceParams parseIP
        (ascii "d10:incompletei3e5:peers6:" ++ [192, 168, 1, 1, 0x1A, 0xE1] ++ ascii "e") =
      .ok { Interval := 0, Complete := 0, Incomplete := 0,
            Peers := [{ Peer.zero with IP := [192, 168, 1, 1], Port := 6881 }] } :=
  ⟨rfl, rfl, rfl⟩

/-- C17, as stated, fails: a verbose peer dictionary with `port` 70000 (and one
with `port` -1) yields a peer with that port. The address parser stands for
`net.ParseIP`, which returns the 16-byte form of `1.2.3.4`. -/
theorem parseNonCompactPeers_port_out_of_range :
    parseNonCompactPeers
        (fun s => if s = ascii "1.2.3.4" then
          some [0, 0, 0, 0, 0, 0, 0, 0, 0, 0, 255, 255, 1, 2, 3, 4] else none)
        [.dict [(ascii "ip", .str (ascii "1.2.3.4")), (ascii "port", .int 70000)],
          .dict [(ascii "ip", .str (ascii "1.2.3.4")), (ascii "port", .int (-1))]] =
      .ok [{ Peer.zero with
              IP := [0, 0, 0, 0, 0, 0, 0, 0, 0, 0, 255, 255, 1, 2, 3, 4], Port := 70000 },
        { Peer.zero with
              IP := [0, 0, 0, 0, 0, 0, 0, 0, 0, 0, 255, 255, 1, 2, 3, 4], Port := -1 }] :=
  rfl

theorem getD_lt_of_forall (l : List Nat) (j : Nat) (h : ∀ b ∈ l, b < 256) :
    l.getD j 0 < 256 := by
  rw [List.getD_eq_getElem?_getD]
  cases hj : l[j]? with
  | none => simp
  | some x =>
    simp only [Option.getD_some]
    obtain ⟨hlt, hx⟩ := List.getElem?_eq_some.mp hj
    exact h x (hx ▸ List.getElem_mem hlt)

theorem parsePeerDict_port (parseIP : List Nat → Option (List Nat)) (i : Nat) (v : Value)
    (peer : Peer) (h : parsePeerDict parseIP i v = .ok peer) :
    ∃ d, v = .dict d ∧ mapLookup d (ascii "port") = some (.int peer.Port) := by
  unfold parsePeerDict at h
  split at h
  · next d =>
    refine ⟨d, rfl, ?_⟩
    simp only at h
    split at h
    · simp at h
    · simp at h
    · split at h
      · simp at h
      · split at h
        · simp at h
        · split at h
          · simp at h
          · next port hport =>
            injection h with h
            rw [hport, ← h]
          · simp at h
      · simp at h
  · simp at h

theorem parseNonCompactPeersFrom_ports (parseIP : List Nat → Option (List Nat))
    (l : List Value) (i : Nat) (peers : List Peer)
    (h : parseNonCompactPeersFrom parseIP i l = .ok peers) :
    List.Forall₂ (fun v p => ∃ d, v = Value.dict d ∧
      mapLookup d (ascii "port") = some (.int p.Port)) l peers := by
  induction l generalizing i peers with
  | nil =>
    rw [parseNonCompactPeersFrom] at h
    injection h with h
    subst h
    exact List.Forall₂.nil
  | cons v l ih =>
    rw [parseNonCompactPeersFrom] at h
    split at h
    · simp at h
    · simp at h
    · next peer hpeer =>
      split at h
      · simp at h
      · simp at h
      · next ps hps =>
        injection h with h
        subst h
        exact List.Forall₂.cons (parsePeerDict_port parseIP i v peer hpeer) (ih _ _ hps)

/-- C17, amended. Every peer of a compact list (of byte values) has a port in
`[0, 65535]`; in a verbose list the `port` integer is not range-checked: the
returned peers are, in order, one for each dictionary, with `Port` equal to the
`port` integer of that dictionary. -/
theorem peer_ports (parseIP : List Nat → Option (List Nat)) (body : List Nat)
    (peerList : List Value) :
    ((∀ b ∈ body, b < 256) → ∀ peers, parseCompactPeers body = .ok peers →
      ∀ p ∈ peers, 0 ≤ p.Port ∧ p.Port ≤ 65535) ∧
    (∀ peers, parseNonCompactPeers parseIP peerList = .ok peers →
      List.Forall₂ (fun v p => ∃ d, v = Value.dict d ∧
        mapLookup d (ascii "port") = some (.int p.Port)) peerList peers) := by
  constructor
  · intro hb peers h p hp
    unfold parseCompactPeers at h
    split at h
    · simp at h
    · injection h with h
      subst h
      obtain ⟨i, _, rfl⟩ := List.mem_map.mp hp
      have hmem : ∀ b ∈ (body.drop (i * 6 + 4)).take 2, b < 256 :=
        fun b hb2 => hb b (List.mem_of_mem_drop (List.mem_of_mem_take hb2))
      have h0 := getD_lt_of_forall _ 0 hmem
      have h1 := getD_lt_of_forall _ 1 hmem
      simp only [Uint16]
      constructor
      · exact Int.natCast_nonneg _
      · have : (List.take 2 (List.drop (i * 6 + 4) body)).getD 0 0 * 256 +
            (List.take 2 (List.drop (i * 6 + 4) body)).getD 1 0 ≤ 65535 := by omega
        exact_mod_cast this
  · intro peers h
    exact parseNonCompactPeersFrom_ports parseIP peerList 0 peers h

theorem peer_ports_witness :
    (∀ p ∈ [({ Peer.zero with IP := [192, 168, 1, 1], Port := 6881 } : Peer)],
        0 ≤ p.Port ∧ p.Port ≤ 65535) ∧
      List.Forall₂ (fun v p => ∃ d, v = Value.dict d ∧
          mapLookup d (ascii "port") = some (.int p.Port))
        [.dict [(ascii "ip", .str (ascii "1.2.3.4")), (ascii "port", .int 70000)]]
        [({ Peer.zero with IP := [1, 2, 3, 4], Port := 70000 } : Peer)] :=
  ⟨(peer_ports (fun _ => none) [192, 168, 1, 1, 0x1A, 0xE1] []).1 (by decide) _ rfl,
    (peer_ports (fun _ => some [1, 2, 3, 4]) []
      [.dict [(ascii "ip", .str (ascii "1.2.3.4")), (ascii "port", .int 70000)]]).2 _ rfl⟩

end Tracker

namespace Bencode

/-! ## Faults and non-canonical integers -/

/-- C19. `Decode` always ends within its recursion budget, but it is not
fault-free: every input that starts with `d-1:` panics in `make([]byte, -1)`,
also below a list (`ld-1:`). -/
theorem Decode_fault (rest : List Nat) :
    (∀ input, Decode input ≠ .outOfFuel) ∧
    Decode (ascii "d-1:" ++ rest) = .fault ∧
    Decode (ascii "ld-1:" ++ rest) = .fault := by
  refine ⟨Decode_ne_outOfFuel, ?_, ?_⟩
  · have h : decodeNext 2 (ascii "d-1:" ++ rest) = .fault := rfl
    rw [Decode_eq_of_decodeNext 2 _ (by rw [h]; simp), h]
  · have h : decodeNext 4 (ascii "ld-1:" ++ rest) = .fault := rfl
    rw [Decode_eq_of_decodeNext 4 _ (by rw [h]; simp), h]

/-- C20. `Decode` accepts integer literals with a `+` sign, which `Encode` never
writes: `i+5e` decodes to 5 and `i+0e` to 0, written back as `i5e` and `i0e`. -/
theorem Decode_plus_sign :
    Decode (ascii "i+5e") = .ok (.int 5) [] ∧
    Encode (.int 5) = .ok (ascii "i5e") ∧
    Decode (ascii "i+0e") = .ok (.int 0) [] ∧
    Encode (.int 0) = .ok (ascii "i0e") ∧
    ascii "i5e" ≠ ascii "i+5e" ∧ ascii "i0e" ≠ ascii "i+0e" :=
  ⟨rfl, rfl, rfl, rfl, by decide, by decide⟩

/-! ## Decimal rendering -/

theorem FormatUint_props (n : Nat) :
    FormatUint n ≠ [] ∧ (∀ c ∈ FormatUint n, 48 ≤ c ∧ c ≤ 57) ∧
      (0 < n → (FormatUint n).head? ≠ some 48) ∧ decimalValue (FormatUint n) = n := by
  induction n using Nat.strong_induction_on with
  | _ n ih =>
    by_cases h10 : n < 10
    · rw [FormatUint_lt n h10]
      refine ⟨by simp, ?_, ?_, ?_⟩
      · intro c hc
        simp at hc
        omega
      · intro hpos
        simp
        omega
      · simp [decimalValue]
    · have hdiv : n / 10 < n := by omega
      obtain ⟨hne, hd, hh, hv⟩ := ih (n / 10) hdiv
      rw [FormatUint_ge n (by omega)]
      refine ⟨by simp, ?_, ?_, ?_⟩
      · intro c hc
        rcases List.mem_append.mp hc with h | h
        · exact hd c h
        · simp at h
          omega
      · intro _
        have : (FormatUint (n / 10) ++ [48 + n % 10]).head? = (FormatUint (n / 10)).head? := by
          cases hf : FormatUint (n / 10) with
          | nil => exact absurd hf hne
          | cons a as => rfl
        rw [this]
        exact hh (by omega)
      · rw [decimalValue_append, hv]
        omega

theorem FormatUint_minimal (n : Nat) : MinimalDecimal (FormatUint n) := by
  obtain ⟨hne, hd, hh, _⟩ := FormatUint_props n
  refine ⟨hne, hd, ?_⟩
  intro h48
  by_cases h0 : n = 0
  · subst h0
    rfl
  · exact absurd h48 (hh (by omega))

theorem decimalValue_FormatUint (n : Nat) : decimalValue (FormatUint n) = n :=
  (FormatUint_props n).2.2.2

theorem decodeString_encodeString (s rest : List Nat) (h : s.length < 2 ^ 63) :
    decodeString (encodeString s ++ rest) = .ok s rest := by
  have := decodeString_canonical (FormatUint s.length) s rest (FormatUint_minimal _)
    (decimalValue_FormatUint _) h
  rw [encodeString, List.append_assoc, List.cons_append]
  exact this

theorem decodeInt_encodeInt (n : Int) (rest : List Nat) (h1 : -2 ^ 63 ≤ n) (h2 : n < 2 ^ 63) :
    decodeInt (encodeInt n ++ rest) = .ok n rest := by
  unfold encodeInt FormatInt
  by_cases hneg : n < 0
  · rw [if_pos hneg]
    have hz : FormatUint n.natAbs ≠ [48] := by
      intro e
      have := decimalValue_FormatUint n.natAbs
      rw [e] at this
      simp [decimalValue] at this
      omega
    have := decodeInt_canonical_neg (FormatUint n.natAbs) rest (FormatUint_minimal _) hz
      (by rw [decimalValue_FormatUint]; omega)
    rw [decimalValue_FormatUint] at this
    have e : -((n.natAbs : Nat) : Int) = n := by omega
    rw [e] at this
    simpa using this
  · rw [if_neg hneg]
    have := decodeInt_canonical (FormatUint n.natAbs) rest (FormatUint_minimal _)
      (by rw [decimalValue_FormatUint]; omega)
    rw [decimalValue_FormatUint] at this
    have e : ((n.natAbs : Nat) : Int) = n := by omega
    rw [e] at this
    simpa using this

end Bencode

namespace Bencode

/-! ## Encoded values are decoded back -/

theorem mapLookup_normalizeEntries (d : List (List Nat × Value)) (k : List Nat) :
    mapLookup (normalizeEntries d) k = (mapLookup d k).map normalize := by
  induction d with
  | nil => simp [normalizeEntries, mapLookup]
  | cons p d ih =>
    obtain ⟨k1, v1⟩ := p
    rw [normalizeEntries, mapLookup, mapLookup, ih]
    by_cases e : k1 = k <;> simp [e]

theorem pairsOf_normalizeEntries (d : List (List Nat × Value)) (ks : List (List Nat)) :
    pairsOf (normalizeEntries d) ks = (pairsOf d ks).map (fun p => (p.1, normalize p.2)) := by
  induction ks with
  | nil => rfl
  | cons k ks ih =>
    unfold pairsOf at ih ⊢
    rw [List.filterMap_cons, List.filterMap_cons, mapLookup_normalizeEntries, ih]
    cases mapLookup d k <;> simp

theorem mapLookup_pairsOf (e : List (List Nat × Value)) (ks : List (List Nat)) (k : List Nat)
    (hk : k ∈ ks) : mapLookup (pairsOf e ks) k = mapLookup e k := by
  induction ks with
  | nil => simp at hk
  | cons k1 ks ih =>
    unfold pairsOf at ih ⊢
    rw [List.filterMap_cons]
    by_cases e1 : k1 = k
    · subst e1
      cases hl : mapLookup e k1 with
      | none =>
        simp only [Option.map_none']
        by_cases hmem : k1 ∈ ks
        · rw [ih hmem, hl]
        · apply mapLookup_eq_none
          intro h
          obtain ⟨p, hp, hpk⟩ := List.mem_map.mp h
          obtain ⟨k2, _, hk2⟩ := List.mem_filterMap.mp hp
          cases hl2 : mapLookup e k2 with
          | none => rw [hl2] at hk2; simp at hk2
          | some v =>
            rw [hl2] at hk2
            simp only [Option.map_some', Option.some.injEq] at hk2
            rw [← hk2] at hpk
            simp only at hpk
            rw [hpk, hl] at hl2
            simp at hl2
      | some v =>
        simp only [Option.map_some']
        rw [mapLookup, if_pos rfl]
    · have hmem : k ∈ ks := by
        rcases List.mem_cons.mp hk with h | h
        · exact absurd h.symm e1
        · exact h
      cases hl : mapLookup e k1 with
      | none =>
        simp only [Option.map_none']
        exact ih hmem
      | some v =>
        simp only [Option.map_some']
        rw [mapLookup, if_neg e1]
        exact ih hmem

theorem WellFormedEntries_mem (d : List (List Nat × Value)) (h : WellFormedEntries d) :
    ∀ p ∈ d, p.1.length < 2 ^ 63 ∧ WellFormed p.2 := by
  induction d with
  | nil => intro p hp; simp at hp
  | cons q d ih =>
    obtain ⟨k, v⟩ := q
    rw [WellFormedEntries] at h
    intro p hp
    rcases List.mem_cons.mp hp with e | e
    · subst e
      exact ⟨h.1, h.2.1⟩
    · exact ih h.2.2 p e

theorem mem_pairsOf (d : List (List Nat × Value)) (ks : List (List Nat))
    (p : List Nat × Value) (hp : p ∈ pairsOf d ks) : mapLookup d p.1 = some p.2 ∧ p.1 ∈ ks := by
  unfold pairsOf at hp
  obtain ⟨k, hk, hkv⟩ := List.mem_filterMap.mp hp
  cases hl : mapLookup d k with
  | none => rw [hl] at hkv; simp at hkv
  | some v =>
    rw [hl] at hkv
    simp only [Option.map_some', Option.some.injEq] at hkv
    subst hkv
    exact ⟨hl, hk⟩

theorem mapLookup_some_mem {α : Type} (d : List (List Nat × α)) (k : List Nat) (v : α)
    (h : mapLookup d k = some v) : (k, v) ∈ d := by
  induction d with
  | nil => simp [mapLookup] at h
  | cons q d ih =>
    obtain ⟨k1, v1⟩ := q
    rw [mapLookup] at h
    by_cases e : k1 = k
    · rw [if_pos e] at h
      injection h with h
      subst e h
      exact List.mem_cons_self _ _
    · rw [if_neg e] at h
      exact List.mem_cons_of_mem _ (ih h)

theorem mapLookup_of_mem_nodup {α : Type} (d : List (List Nat × α)) (k : List Nat) (v : α)
    (hn : (d.map Prod.fst).Nodup) (h : (k, v) ∈ d) : mapLookup d k = some v := by
  induction d with
  | nil => simp at h
  | cons q d ih =>
    obtain ⟨k1, v1⟩ := q
    simp only [List.map_cons, List.nodup_cons] at hn
    rw [mapLookup]
    rcases List.mem_cons.mp h with e | e
    · injection e with e1 e2
      rw [if_pos e1.symm, e2]
    · have : k1 ≠ k := by
        intro e1
        subst e1
        exact hn.1 (List.mem_map_of_mem Prod.fst e)
      rw [if_neg this]
      exact ih hn.2 e

theorem emitPairs_decodeDictLoop (ps : List (List Nat × Value))
    (hn : (ps.map Prod.fst).Nodup)
    (h : ∀ p ∈ ps, p.1.length < 2 ^ 63 ∧
      ∃ b f, encodeValue p.2 = .ok b ∧ decodeNext f b = .ok (normalize p.2) []) :
    ∃ body f, emitPairs ps = .ok body ∧
      ∀ acc : List (List Nat × Value), (∀ p ∈ ps, p.1 ∉ acc.map Prod.fst) →
        decodeDictLoop f body acc =
          .ok (acc ++ ps.map (fun p => (p.1, normalize p.2))) [] := by
  induction ps with
  | nil =>
    refine ⟨[101], 1, rfl, ?_⟩
    intro acc _
    simp [decodeDictLoop]
  | cons q ps ih =>
    obtain ⟨k, v⟩ := q
    simp only [List.map_cons, List.nodup_cons] at hn
    obtain ⟨hk, b, f1, henc, hdec⟩ := h _ (List.mem_cons_self _ _)
    obtain ⟨body, f2, hemit, hloop⟩ := ih hn.2 (fun p hp => h p (List.mem_cons_of_mem _ hp))
    simp only at hk henc hdec
    refine ⟨encodeString k ++ b ++ body, max f1 f2 + 1, ?_, ?_⟩
    · rw [emitPairs, henc, hemit]
    · intro acc hacc
      have hstr := decodeString_encodeString k (b ++ body) hk
      obtain ⟨c, cs, hds, hc⟩ := (FormatUint_minimal k.length).head_digit
      have hne : c ≠ 101 := by omega
      have hd1 := (decode_append_aux body f1).1 b _ [] hdec
      have hd2 := decodeNext_mono f1 (max f1 f2) _ _ _ hd1 (le_max_left _ _)
      have hins : mapInsert acc k (normalize v) = acc ++ [(k, normalize v)] :=
        mapInsert_of_not_mem acc k _ (hacc _ (List.mem_cons_self _ _))
      have hacc2 : ∀ p ∈ ps, p.1 ∉ (acc ++ [(k, normalize v)]).map Prod.fst := by
        intro p hp hmem
        simp only [List.map_append, List.map_cons, List.map_nil, List.mem_append,
          List.mem_singleton] at hmem
        rcases hmem with hmem | hmem
        · exact hacc p (List.mem_cons_of_mem _ hp) hmem
        · exact hn.1 (hmem ▸ List.mem_map_of_mem Prod.fst hp)
      have hl2 := decodeDictLoop_mono f2 (max f1 f2) _ _ _ _
        (hloop (acc ++ [(k, normalize v)]) hacc2) (le_max_right _ _)
      have hshape : encodeString k ++ b ++ body = c :: (cs ++ 58 :: k ++ (b ++ body)) := by
        rw [encodeString, hds]
        simp
      have hstr2 : decodeString (c :: (cs ++ 58 :: k ++ (b ++ body))) = .ok k (b ++ body) := by
        rw [← hshape, List.append_assoc]
        exact hstr
      rw [hshape, decodeDictLoop_succ_cons, if_neg hne, hstr2]
      simp only [List.nil_append] at hd2
      simp only [hd2, hins, hl2]
      simp

end Bencode

namespace Bencode

mutual

theorem encode_decode_value : ∀ (v : Value), WellFormed v →
    ∃ b f, encodeValue v = .ok b ∧ decodeNext f b = .ok (normalize v) []
  | .str s, h => by
    rw [WellFormed] at h
    obtain ⟨c, cs, hds, hc⟩ := (FormatUint_minimal s.length).head_digit
    have hstr := decodeString_encodeString s [] h
    refine ⟨encodeString s, 1, by rw [encodeValue], ?_⟩
    rw [List.append_nil] at hstr
    have hshape : encodeString s = c :: (cs ++ 58 :: s) := by
      rw [encodeString, hds]
      rfl
    rw [hshape] at hstr ⊢
    rw [decodeNext_succ_cons, if_pos hc, hstr, normalize]
  | .int n, h => by
    rw [WellFormed] at h
    have hint := decodeInt_encodeInt n [] h.1 h.2
    refine ⟨encodeInt n, 1, by rw [encodeValue], ?_⟩
    rw [List.append_nil] at hint
    have hshape : encodeInt n = 105 :: (FormatInt n ++ [101]) := rfl
    rw [hshape] at hint ⊢
    rw [decodeNext_succ_cons, if_neg (by omega), if_pos rfl, hint, normalize]
  | .list l, h => by
    rw [WellFormed] at h
    obtain ⟨body, f, henc, hdec⟩ := encode_decode_list l h
    refine ⟨108 :: body, f + 1, by rw [encodeValue, henc], ?_⟩
    rw [decodeNext_succ_cons, if_neg (by omega), if_neg (by omega), if_pos rfl, hdec [],
      normalize]
    rfl
  | .dict d, h => by
    rw [WellFormed] at h
    have hvals := encode_decode_entries d h.2
    have hwf := WellFormedEntries_mem d h.2
    have hperm := sortStrings_perm (d.map Prod.fst)
    have hkeys : (pairsOf d (sortStrings (d.map Prod.fst))).map Prod.fst =
        sortStrings (d.map Prod.fst) :=
      pairsOf_map_fst d _ (fun k hk => hperm.mem_iff.mp hk)
    have hnodup : (sortStrings (d.map Prod.fst)).Nodup := hperm.nodup_iff.mpr h.1
    obtain ⟨body, f, hemit, hloop⟩ := emitPairs_decodeDictLoop
      (pairsOf d (sortStrings (d.map Prod.fst))) (by rw [hkeys]; exact hnodup)
      (fun p hp => by
        have hm := mem_pairsOf d _ p hp
        have hpd : p ∈ d := mapLookup_some_mem d p.1 p.2 hm.1
        exact ⟨(hwf p hpd).1, hvals p hpd⟩)
    refine ⟨100 :: body, f + 1, by rw [encodeValue_dict, emitDict, hemit], ?_⟩
    rw [decodeNext_succ_cons, if_neg (by omega), if_neg (by omega), if_neg (by omega),
      if_pos rfl, hloop [] (fun p _ => by simp), normalize, pairsOf_normalizeEntries]
    rfl
  | .bytes b, h => by
    rw [WellFormed] at h
    exact absurd h id

theorem encode_decode_list : ∀ (l : List Value), WellFormedList l →
    ∃ body f, encodeListLoop l = .ok body ∧
      ∀ acc, decodeListLoop f body acc = .ok (acc ++ normalizeList l) []
  | [], _ => by
    refine ⟨[101], 1, rfl, ?_⟩
    intro acc
    simp [decodeListLoop, normalizeList]
  | v :: l, h => by
    rw [WellFormedList] at h
    obtain ⟨b, f1, henc, hdec⟩ := encode_decode_value v h.1
    obtain ⟨body, f2, hencs, hloop⟩ := encode_decode_list l h.2
    obtain ⟨c, cs, hb, hc⟩ := decodeNext_ok_head _ _ _ _ hdec
    refine ⟨b ++ body, max f1 f2 + 1, by rw [encodeListLoop, henc, hencs], ?_⟩
    intro acc
    have hd1 := (decode_append_aux body f1).1 b _ [] hdec
    have hd2 := decodeNext_mono f1 (max f1 f2) _ _ _ hd1 (le_max_left _ _)
    have hl2 := decodeListLoop_mono f2 (max f1 f2) _ _ _ _ (hloop (acc ++ [normalize v]))
      (le_max_right _ _)
    rw [hb] at hd2 ⊢
    rw [List.cons_append] at hd2 ⊢
    rw [decodeListLoop_succ_cons, if_neg hc, hd2]
    simp only [List.nil_append]
    rw [hl2, normalizeList]
    simp

theorem encode_decode_entries : ∀ (d : List (List Nat × Value)), WellFormedEntries d →
    ∀ p ∈ d, ∃ b f, encodeValue p.2 = .ok b ∧ decodeNext f b = .ok (normalize p.2) []
  | [], _ => by
    intro p hp
    simp at hp
  | (k, v) :: d, h => by
    rw [WellFormedEntries] at h
    intro p hp
    rcases List.mem_cons.mp hp with e | e
    · subst e
      exact encode_decode_value v h.2.1
    · exact encode_decode_entries d h.2.2 p e

end

end Bencode

namespace Bencode

theorem normalizeEntries_keys (d : List (List Nat × Value)) :
    (normalizeEntries d).map Prod.fst = d.map Prod.fst := by
  induction d with
  | nil => rfl
  | cons p d ih =>
    obtain ⟨k, v⟩ := p
    rw [normalizeEntries, List.map_cons, List.map_cons, ih]

mutual

theorem sameValue_normalize : ∀ (v : Value), WellFormed v → SameValue v (normalize v)
  | .str s, _ => by rw [normalize, SameValue]
  | .int n, _ => by rw [normalize, SameValue]
  | .list l, h => by
    rw [WellFormed] at h
    rw [normalize, SameValue]
    exact ⟨_, rfl, sameList_normalize l h⟩
  | .dict d, h => by
    rw [WellFormed] at h
    rw [normalize, SameValue]
    have hperm := sortStrings_perm (d.map Prod.fst)
    have hkeys : (pairsOf (normalizeEntries d) (sortStrings (d.map Prod.fst))).map Prod.fst =
        sortStrings (d.map Prod.fst) :=
      pairsOf_map_fst _ _ (fun k hk => by
        rw [normalizeEntries_keys]
        exact hperm.mem_iff.mp hk)
    refine ⟨_, rfl, ?_, ?_, ?_⟩
    · rw [hkeys]
      exact hperm.nodup_iff.mpr h.1
    · rw [hkeys]
      exact hperm
    · apply sameEntries_normalize d h.2
      intro p hp
      have hk : p.1 ∈ sortStrings (d.map Prod.fst) :=
        hperm.mem_iff.mpr (List.mem_map_of_mem Prod.fst hp)
      rw [mapLookup_pairsOf _ _ _ hk, mapLookup_normalizeEntries,
        mapLookup_of_mem_nodup d p.1 p.2 h.1 hp]
      rfl
  | .bytes b, _ => by rw [normalize, SameValue]

theorem sameList_normalize : ∀ (l : List Value), WellFormedList l →
    SameList l (normalizeList l)
  | [], _ => by rw [normalizeList, SameList]
  | v :: l, h => by
    rw [WellFormedList] at h
    rw [normalizeList, SameList]
    exact ⟨_, _, rfl, sameValue_normalize v h.1, sameList_normalize l h.2⟩

theorem sameEntries_normalize : ∀ (d : List (List Nat × Value)), WellFormedEntries d →
    ∀ d1 : List (List Nat × Value), (∀ p ∈ d, mapLookup d1 p.1 = some (normalize p.2)) →
      SameEntries d d1
  | [], _ => by
    intro d1 _
    rw [SameEntries]
    trivial
  | (k, v) :: d, h => by
    rw [WellFormedEntries] at h
    intro d1 hl
    rw [SameEntries]
    exact ⟨⟨_, hl _ (List.mem_cons_self _ _), sameValue_normalize v h.2.1⟩,
      sameEntries_normalize d h.2.2 d1 (fun p hp => hl p (List.mem_cons_of_mem _ hp))⟩

end

/-- C18. `Decode` undoes `Encode`: for a value tree `v` of byte strings, signed
64-bit integers, lists and dictionaries with unique keys, `Encode` writes some
bytes `b`, and `Decode` of `b` returns a value equal to `v`: lists item by item
in the same order, dictionaries with the same keys and equal values. -/
theorem Decode_Encode_value (v : Value) (h : WellFormed v) :
    ∃ b w, Encode v = .ok b ∧ Decode b = .ok w [] ∧ SameValue v w := by
  obtain ⟨b, f, henc, hdec⟩ := encode_decode_value v h
  exact ⟨b, normalize v, henc,
    by rw [Decode_eq_of_decodeNext f b (by rw [hdec]; simp), hdec], sameValue_normalize v h⟩

theorem Decode_Encode_value_witness :
    WellFormed (.dict [(ascii "b", .list [.str (ascii "x"), .int (-3)]),
        (ascii "a", .dict [(ascii "z", .int 1), (ascii "y", .str [])])]) ∧
      ∃ b w, Encode (.dict [(ascii "b", .list [.str (ascii "x"), .int (-3)]),
          (ascii "a", .dict [(ascii "z", .int 1), (ascii "y", .str [])])]) = .ok b ∧
        Decode b = .ok w [] ∧
        SameValue (.dict [(ascii "b", .list [.str (ascii "x"), .int (-3)]),
          (ascii "a", .dict [(ascii "z", .int 1), (ascii "y", .str [])])]) w :=
  have hw : WellFormed (.dict [(ascii "b", .list [.str (ascii "x"), .int (-3)]),
      (ascii "a", .dict [(ascii "z", .int 1), (ascii "y", .str [])])]) := by
    simp [WellFormed, WellFormedList, WellFormedEntries, ascii]
  ⟨hw, Decode_Encode_value _ hw⟩

end Bencode

namespace Torrent

open Bencode

/-! ## Piece sizes add up to the content -/

theorem ceil_bounds (n T P : Int) (hP : 0 < P)
    (h : n = Int.ceil ((T : ℚ) / (P : ℚ))) : (n - 1) * P < T ∧ T ≤ n * P := by
  have hPq : (0 : ℚ) < (P : ℚ) := by exact_mod_cast hP
  obtain ⟨h1, h2⟩ := Int.ceil_eq_iff.mp h.symm
  rw [lt_div_iff₀ hPq] at h1
  rw [div_le_iff₀ hPq] at h2
  constructor
  · exact_mod_cast h1
  · exact_mod_cast h2

theorem last_piece_sum (m T P : Int) (hP : 0 < P) (hT : 0 < T)
    (h1 : m * P < T) (h2 : T ≤ (m + 1) * P) :
    m * P + (if T.tmod P = 0 then P else T.tmod P) = T ∧
      0 < (if T.tmod P = 0 then P else T.tmod P) ∧
      (if T.tmod P = 0 then P else T.tmod P) ≤ P := by
  rw [Int.tmod_eq_emod (le_of_lt hT) (le_of_lt hP)]
  have hdiv := Int.emod_add_ediv T P
  have hr0 := Int.emod_nonneg T (ne_of_gt hP)
  have hr1 := Int.emod_lt_of_pos T hP
  by_cases hr : T % P = 0
  · rw [if_pos hr]
    rw [hr, zero_add] at hdiv
    have a : m < T / P := by nlinarith
    have b : T / P < m + 2 := by nlinarith
    have e : T / P = m + 1 := by omega
    rw [e] at hdiv
    refine ⟨by linarith, hP, le_refl _⟩
  · rw [if_neg hr]
    have hrpos : 0 < T % P := by omega
    have a : T / P < m + 1 := by nlinarith
    have b : m - 1 < T / P := by nlinarith
    have e : T / P = m := by omega
    rw [e] at hdiv
    refine ⟨by linarith, by omega, by omega⟩

/-- C21. Piece sizes partition the content: with `PieceLength > 0`,
`TotalLength > 0` and `NumPieces = ceil(TotalLength / PieceLength)`, the calls
`PieceSize(i)` for `i` in `[0, NumPieces)` all return, each size `s` satisfies
`0 < s <= PieceLength`, and the sizes add up to `TotalLength`. -/
theorem PieceSize_partition (t : TorrentFile) (hpl : 0 < t.Info.PieceLength)
    (htot : 0 < TotalLength t)
    (hnum : NumPieces t = Int.ceil ((TotalLength t : ℚ) / (t.Info.PieceLength : ℚ))) :
    ∃ sizes : List Int,
      (List.range t.PiecesHash.length).map (fun (i : Nat) => PieceSize t (i : Int)) =
        sizes.map Outcome.ok ∧
      (∀ s ∈ sizes, 0 < s ∧ s ≤ t.Info.PieceLength) ∧
      sizes.sum = TotalLength t := by
  obtain ⟨hb1, hb2⟩ := ceil_bounds _ _ _ hpl hnum
  have hN : NumPieces t = (t.PiecesHash.length : Int) := rfl
  rw [hN] at hb1 hb2
  have hpos : 0 < t.PiecesHash.length := by
    rcases Nat.eq_zero_or_pos t.PiecesHash.length with h0 | h0
    · rw [h0] at hb2
      simp at hb2
      omega
    · exact h0
  obtain ⟨m, hm⟩ : ∃ m, t.PiecesHash.length = m + 1 := ⟨t.PiecesHash.length - 1, by omega⟩
  rw [hm] at hb1 hb2
  have hb1' : (m : Int) * t.Info.PieceLength < TotalLength t := by
    have : ((m + 1 : Nat) : Int) - 1 = (m : Int) := by push_cast; ring
    rw [this] at hb1
    exact hb1
  have hb2' : TotalLength t ≤ ((m : Int) + 1) * t.Info.PieceLength := by
    have : ((m + 1 : Nat) : Int) = (m : Int) + 1 := by push_cast; ring
    rw [this] at hb2
    exact hb2
  obtain ⟨hsum, hlast0, hlast1⟩ := last_piece_sum _ _ _ hpl htot hb1' hb2'
  have hNm : NumPieces t = (m : Int) + 1 := by rw [hN, hm]; push_cast; ring
  refine ⟨List.replicate m t.Info.PieceLength ++
    [if (TotalLength t).tmod t.Info.PieceLength = 0 then t.Info.PieceLength
     else (TotalLength t).tmod t.Info.PieceLength], ?_, ?_, ?_⟩
  · rw [hm, List.range_succ, List.map_append, List.map_append, List.map_replicate]
    congr 1
    · have : ∀ i ∈ List.range m, (fun i : Nat => PieceSize t (i : Int)) i =
          (fun _ => Outcome.ok t.Info.PieceLength) i := by
        intro i hi
        have hi2 : i < m := List.mem_range.mp hi
        exact (PieceSize_cases t i hpl).2.1 (by omega) (by rw [hNm]; omega)
      rw [List.map_congr_left this, List.map_const', List.length_range]
    · simp only [List.map_cons, List.map_nil]
      rw [(PieceSize_cases t m hpl).2.2.1 (by omega) (by rw [hNm]; omega)]
  · intro s hs
    rcases List.mem_append.mp hs with h | h
    · rw [(List.mem_replicate.mp h).2]
      exact ⟨hpl, le_refl _⟩
    · rw [List.mem_singleton.mp h]
      exact ⟨hlast0, hlast1⟩
  · rw [List.sum_append, List.sum_replicate, List.sum_singleton, nsmul_eq_mul]
    exact hsum

theorem PieceSize_partition_witness :
    ∃ sizes : List Int,
      (List.range 3).map (fun (i : Nat) => PieceSize { TorrentFile.zero with
          Info := { InfoDict.zero with PieceLength := 4, Length := 10 }
          PiecesHash := [[], [], []] } (i : Int)) = sizes.map Outcome.ok ∧
      (∀ s ∈ sizes, 0 < s ∧ s ≤ 4) ∧ sizes.sum = 10 :=
  PieceSize_partition { TorrentFile.zero with
      Info := { InfoDict.zero with PieceLength := 4, Length := 10 }
      PiecesHash := [[], [], []] } (by decide) (by decide)
    (by
      show (3 : Int) = Int.ceil (((10 : Int) : ℚ) / ((4 : Int) : ℚ))
      rw [eq_comm, Int.ceil_eq_iff]
      constructor <;> norm_num)

end Torrent
